import Mathlib

/-!
# range-v3: `view::remove_when` and `view::c_str`

A shallow embedding of `include/range/v3/view/remove_when.hpp` and
`include/range/v3/view/c_str.hpp`.

* The wrapped source range is a finite list; an iterator into it is the index
  of the element it points at and `ranges::end` of the source is its length.
* The matcher (`Pred` / `Fun`, kept in `box<semiregular_t<Pred>>`) is invoked
  through a non-const reference, so it may carry state: it is a state-passing
  function.
* The view's mutable members are `zero_` and `begin_`; a ghost `trace`
  records every invocation of the matcher.
-/

set_option autoImplicit false

namespace ranges

/-- Result of `invoke(pred, it, last)`: the `std::pair<bool, iterator>` the
matcher returns, and the matcher's state after the call. -/
abbrev Matcher (σ : Type) : Type := σ → Nat → Nat → (Bool × Nat) × σ

/-- The class `remove_when_view<Rng, Pred>`.  `base` is the wrapped range of
`view_adaptor`, `pred` with its state `st` is the boxed matcher, `zero_` and
`begin_` are the private members of the class.  `trace` is ghost state: one
entry `(it, p.first, p.second)` per matcher invocation, most recent first. -/
structure remove_when_view (α σ : Type) where
  base : List α
  pred : Matcher σ
  st : σ
  zero_ : Bool
  begin_ : Option Nat
  trace : List (Nat × Bool × Nat)

namespace remove_when_view

variable {α σ : Type}

/-- Constructor `remove_when_view(Rng rng, Pred pred)`.  It initialises the
base and the box only: `begin_` is default-constructed (empty) and `zero_` has
no initialiser, so its value `z` is indeterminate. -/
def mk_view (rng : List α) (pred : Matcher σ) (s : σ) (z : Bool) : remove_when_view α σ :=
  { base := rng, pred := pred, st := s, zero_ := z, begin_ := none, trace := [] }

/-- The call `ranges::end(this->base())`: the end of the wrapped range. -/
def base_end (v : remove_when_view α σ) : Nat := v.base.length

/-- The call `ranges::begin(this->base())`: the begin of the wrapped range. -/
def base_begin (_v : remove_when_view α σ) : Nat := 0

/-- Member `satisfy_forward(iterator_t<Rng> & it)`: returns the view and the
iterator after the call. -/
def satisfy_forward (v : remove_when_view α σ) (it : Nat) : remove_when_view α σ × Nat :=
  if v.zero_ then
    ({ v with zero_ := false }, it)
  else
    let last := base_end v
    if it ≠ last then
      let r := v.pred v.st it last
      let p := r.1
      let v1 := { v with st := r.2, trace := (it, p.1, p.2) :: v.trace }
      if p.1 then
        ({ v1 with zero_ := decide (it = p.2) }, p.2)
      else
        (v1, it)
    else
      (v, it)

/-- Member `cache_begin()`. -/
def cache_begin (v : remove_when_view α σ) : remove_when_view α σ :=
  match v.begin_ with
  | some _ => v
  | none =>
    let it := base_begin v
    let r := satisfy_forward { v with zero_ := false } it
    { r.1 with begin_ := some r.2 }

/-- Member `begin_adaptor()`: runs `cache_begin` and returns an adaptor that
points at this view (the view itself here). -/
def begin_adaptor (v : remove_when_view α σ) : remove_when_view α σ := cache_begin v

/-- Member `end_adaptor()`: an adaptor pointing at this view; no state changes. -/
def end_adaptor (v : remove_when_view α σ) : remove_when_view α σ := v

/-- Static `adaptor::begin(rng)`: `*rng.begin_`; dereferencing an empty cache
is undefined (`none`). -/
def adaptor_begin (v : remove_when_view α σ) : Option Nat := v.begin_

/-- Member `adaptor::next(it)`: `none` when `RANGES_ASSERT(it != end)` fails,
otherwise `satisfy_forward(++it)`. -/
def adaptor_next (v : remove_when_view α σ) (it : Nat) : Option (remove_when_view α σ × Nat) :=
  if it ≠ base_end v then some (satisfy_forward v (it + 1)) else none

/-- Modelled from the spec: `view_adaptor` / `adaptor_base` (view/adaptor.hpp)
are not among the sources.  Per the spec, `begin` returns the cached begin,
computing it on first use: the view's `begin()` is `begin_adaptor()` followed
by `adaptor::begin`. -/
def view_begin (v : remove_when_view α σ) : Option (remove_when_view α σ × Nat) :=
  let v1 := begin_adaptor v
  (adaptor_begin v1).map (fun it => (v1, it))

/-- Modelled from the spec: `adaptor_base::end` (view/adaptor.hpp) is not among
the sources and `adaptor` does not override it.  Per the spec, `end` returns an
adaptor wrapping the same sentinel as the source. -/
def view_end (v : remove_when_view α σ) : remove_when_view α σ × Nat :=
  let v1 := end_adaptor v
  (v1, v1.base.length)

/-- Modelled from the spec: the loop `for (it = begin(); it != end(); ++it)`
of the position protocol (equality with the sentinel, dereference, advance);
`++it` on the view's iterator is `adaptor::next`.  One unit of fuel is spent
per `++it`; `none` is returned when fuel runs out, when an out-of-range
position is dereferenced, or when the assertion of `next` fails.  The result is
the list of elements read and the view after the loop. -/
def traverse_from : Nat → remove_when_view α σ → Nat → Option (List α × remove_when_view α σ)
  | fuel, v, it =>
    if it = (view_end v).2 then some ([], v)
    else
      match fuel with
      | 0 => none
      | f + 1 =>
        match v.base[it]?, adaptor_next v it with
        | some x, some (v1, it1) =>
          match traverse_from f v1 it1 with
          | some (ys, v2) => some (x :: ys, v2)
          | none => none
        | _, _ => none

/-- A complete traversal: `begin()`, then the loop up to `end()`. -/
def traverse_view (fuel : Nat) (v : remove_when_view α σ) : Option (List α × remove_when_view α σ) :=
  match view_begin v with
  | some (v1, it) => traverse_from fuel v1 it
  | none => none

/-- Elements yielded by a complete traversal. -/
def traverse_elems (fuel : Nat) (v : remove_when_view α σ) : Option (List α) :=
  (traverse_view fuel v).map Prod.fst

end remove_when_view

namespace detail

/-- Modelled from the spec: `detail::predicate_pred<Pred>` (view/when_common.hpp)
is not among the sources.  Per the spec, a plain element predicate is lifted
into the match-function contract "by matching exactly the single current
element when the predicate holds". -/
def predicate_pred {α : Type} (P : α → Bool) (rng : List α) : Matcher Unit :=
  fun s it _last =>
    match rng[it]? with
    | some x => if P x then ((true, it + 1), s) else ((false, it), s)
    | none => ((false, it), s)

end detail

namespace view

/-- The call `remove_when_fn::operator()(Rng && rng, Pred pred)` (predicate
overload): the view over `rng` with matcher `predicate_pred<Pred>{pred}`. -/
def remove_when {α : Type} (rng : List α) (P : α → Bool) (z : Bool) : remove_when_view α Unit :=
  remove_when_view.mk_view rng (detail.predicate_pred P rng) () z

/-- The call `remove_when_fn::operator()(Rng && rng, Fun fun)` (match-function
overload): the view over `rng` with matcher `fun`. -/
def remove_when_fun {α σ : Type} (rng : List α) (f : Matcher σ) (s : σ) (z : Bool) :
    remove_when_view α σ :=
  remove_when_view.mk_view rng f s z

end view

end ranges

namespace ranges

/-! ### Operation sequences on a view -/

/-- The operations a client (or the view itself) performs on a view: `begin()`,
`end()`, `next(it)` and `satisfy_forward(it)`. -/
inductive Op where
  | begin : Op
  | end_ : Op
  | next : Nat → Op
  | satisfy : Nat → Op
  deriving DecidableEq, Repr

namespace remove_when_view

variable {α σ : Type}

/-- The view after one operation; `none` when the operation is undefined (the
assertion of `next` fails). -/
def step (v : remove_when_view α σ) : Op → Option (remove_when_view α σ)
  | Op.begin => (view_begin v).map Prod.fst
  | Op.end_ => some (view_end v).1
  | Op.next it => (adaptor_next v it).map Prod.fst
  | Op.satisfy it => some (satisfy_forward v it).1

/-- The view after a sequence of operations. -/
def run (v : remove_when_view α σ) : List Op → Option (remove_when_view α σ)
  | [] => some v
  | op :: ops =>
    match step v op with
    | some v1 => run v1 ops
    | none => none

end remove_when_view

/-! ### Matchers used in the statements -/

/-- The Match Function Contract on a source of length `n`: a reported new
position lies between the input position and the sentinel, inclusive. -/
def match_contract {σ : Type} (m : Matcher σ) (n : Nat) : Prop :=
  ∀ s p, p < n → (m s p n).1.1 = true → p ≤ (m s p n).1.2 ∧ (m s p n).1.2 ≤ n

/-- A position of the view `v` that is at the sentinel or at which the matcher,
in its current state, reports no match of positive length: the element there
would not be elided. -/
def at_survivor {α σ : Type} (v : remove_when_view α σ) (it : Nat) : Bool :=
  it == v.base.length ||
    !((v.pred v.st it v.base.length).1.1 && decide (it < (v.pred v.st it v.base.length).1.2))

/-- The matcher `m`, in state `s`, reports a match of positive length at
position `p` of a source of length `n`. -/
def pos_match {σ : Type} (m : Matcher σ) (n : Nat) (s : σ) (p : Nat) : Bool :=
  (m s p n).1.1 && decide (p < (m s p n).1.2)

/-- Reference for "the first surviving element", after the words of the spec
("advances `p` past zero or more maximal matched runs"): from position `p`,
skip every matched run of positive length, passing the matcher's state along,
until the sentinel or a position at which the matcher reports no match of
positive length.  One unit of fuel is spent per matcher invocation; `none` when
fuel runs out. -/
def skip_runs {σ : Type} (m : Matcher σ) (n : Nat) : Nat → σ → Nat → Option (Nat × σ)
  | fuel, s, p =>
    if p = n then some (p, s)
    else
      match fuel with
      | 0 => none
      | f + 1 =>
        if pos_match m n s p then skip_runs m n f (m s p n).2 (m s p n).1.2
        else some (p, (m s p n).2)

/-- The position of the first surviving element from position `p` on. -/
def first_survivor {σ : Type} (m : Matcher σ) (n : Nat) (fuel : Nat) (s : σ) (p : Nat) :
    Option Nat :=
  (skip_runs m n fuel s p).map Prod.fst

/-- The run reported at `p` is chained: `p` is before the sentinel, the matcher
reports a match of positive length at `p`, that match ends before the sentinel,
and at the position where it ends the matcher (in the state the first
invocation left it in) reports a match of positive length again. -/
def run_chained {σ : Type} (m : Matcher σ) (n : Nat) (s : σ) (p : Nat) : Bool :=
  decide (p ≠ n) && pos_match m n s p && decide ((m s p n).1.2 ≠ n) &&
    pos_match m n (m s p n).2 (m s p n).1.2

/-- A lifting `m` of the element predicate `P` over the source `rng`: it
matches at a position before the sentinel exactly when the element there
satisfies `P`, and a match consumes at least one element, only elements that
satisfy `P`, and ends at the sentinel or at an element that does not satisfy
`P`. -/
def lifts_predicate {α : Type} (P : α → Bool) (rng : List α) (m : Matcher Unit) : Prop :=
  ∀ p, p < rng.length →
    (m () p rng.length).1.1 = rng[p]?.any P ∧
    ((m () p rng.length).1.1 = true →
      p < (m () p rng.length).1.2 ∧ (m () p rng.length).1.2 ≤ rng.length ∧
      (∀ i, i < (m () p rng.length).1.2 → p ≤ i → rng[i]?.any P = true) ∧
      rng[(m () p rng.length).1.2]?.any P = false)

/-- A run-consuming lifting of an element predicate, for comparison with the
single-element lifting: it matches when at least one element from the current
position on satisfies the predicate in a row, and the match ends at the first
element from there on that does not satisfy it (or at the sentinel). -/
def predicate_run {α : Type} (P : α → Bool) (rng : List α) : Matcher Unit :=
  fun s it _last =>
    ((decide (0 < ((rng.drop it).takeWhile P).length),
      it + ((rng.drop it).takeWhile P).length), s)

/-- The run matcher: it matches at a position iff the element there equals its
successor, and then consumes the whole maximal run of elements equal to it. -/
def match_run {α : Type} [DecidableEq α] (rng : List α) : Matcher Unit :=
  fun s it _last =>
    match rng[it]?, rng[it + 1]? with
    | some x, some y =>
      if x = y then
        ((true, it + ((rng.drop it).takeWhile (fun c => decide (c = x))).length), s)
      else ((false, it), s)
    | _, _ => ((false, it), s)

/-- Reference for the run example, after the words of the spec: the elements
that do not belong to any run of two or more adjacent equal elements, that is
the elements equal neither to their predecessor `prev` nor to their successor. -/
def outside_runs_aux {α : Type} [DecidableEq α] : Option α → List α → List α
  | _, [] => []
  | prev, x :: rest =>
    if prev = some x ∨ rest.head? = some x then outside_runs_aux (some x) rest
    else x :: outside_runs_aux (some x) rest

/-- The elements of a list that belong to no run of two or more adjacent equal
elements, in order. -/
def outside_runs {α : Type} [DecidableEq α] (l : List α) : List α :=
  outside_runs_aux none l

/-- No run of two or more adjacent equal elements is immediately followed by
another such run: nowhere do four consecutive elements `a, b, c, d` have
`a = b`, `b ≠ c` and `c = d`. -/
def no_chained_runs {α : Type} [DecidableEq α] : List α → Bool
  | [] => true
  | a :: l =>
    (match l with
      | b :: c :: d :: _ => !(decide (a = b) && decide (b ≠ c) && decide (c = d))
      | _ => true) && no_chained_runs l

/-- The predicate "is even". -/
def is_even (x : Nat) : Bool := x % 2 == 0

/-- A native matcher that matches exactly the one element at every position. -/
def match_one : Matcher Unit := fun s it _last => ((true, it + 1), s)

/-- A matcher that reports a zero-length match on its first invocation and no
match on every later one; its state records whether it has been invoked. -/
def match_zero_once : Matcher Bool :=
  fun fired it _last => if fired then ((false, it), true) else ((true, it), true)

end ranges

namespace ranges

/-! ### `view::c_str` and the delimited view it builds -/

/-- Modelled from the spec: `delimit_view` (view/delimit.hpp) and
`unreachable_sentinel_t` (iterator/unreachable_sentinel.hpp) are not among the
sources.  Per the spec (Termination-Sequence View) the view holds a starting
position and a termination test, here "equals `value`", and its bound is the
unreachable sentinel.  `base` is the storage the starting position points at;
a position is an offset into it. -/
structure delimit_view (α : Type) where
  base : List α
  value : α

namespace delimit_view

variable {α : Type} [DecidableEq α]

/-- Modelled from the spec: the equality-with-sentinel check of the delimited
view.  The unreachable sentinel compares unequal to every position, so
"termination is detected ... by evaluating the termination predicate on the
current element each time an equality-with-sentinel check is requested".
Reading outside the storage is undefined (`none`). -/
def at_end (v : delimit_view α) (p : Nat) : Option Bool :=
  match v.base[p]? with
  | some c => some (decide (c = v.value))
  | none => none

/-- Modelled from the spec: the traversal loop over the delimited view;
"advancing is exactly the underlying position's advance".  One unit of fuel is
spent per advance; `none` is returned when fuel runs out or when the storage is
read out of range. -/
def traverse_from (v : delimit_view α) : Nat → Nat → Option (List α)
  | fuel, p =>
    match at_end v p with
    | none => none
    | some true => some []
    | some false =>
      match fuel with
      | 0 => none
      | f + 1 =>
        match v.base[p]?, traverse_from v f (p + 1) with
        | some c, some ys => some (c :: ys)
        | _, _ => none

/-- A complete traversal from the starting position. -/
def traverse_all (v : delimit_view α) (fuel : Nat) : Option (List α) :=
  traverse_from v fuel 0

end delimit_view

namespace view

/-- Modelled from the spec: `view::delimit(begin, value)` (view/delimit.hpp, not
among the sources) builds the delimited view over the open-ended range that
starts at `begin`. -/
def delimit {α : Type} (sz : List α) (value : α) : delimit_view α :=
  { base := sz, value := value }

/-- The call `c_str_fn::operator()(Char *sz)` (null-terminated overload):
`ranges::view::delimit(sz, ch_t(0))`.  Characters are their codes; `sz` is the
storage the pointer points at. -/
def c_str (sz : List Nat) : delimit_view Nat := delimit sz 0

end view

end ranges

namespace ranges

/-! ### Instruments for invariants, repeated traversal and visited positions -/

namespace remove_when_view

variable {α σ : Type}

/-- The zero-flag invariant: `zero_` is set only if the most recent matcher
invocation recorded in the ghost trace reported a match whose new position is
the position it was invoked at. -/
def zero_flag_ok (v : remove_when_view α σ) : Bool :=
  !v.zero_ ||
    match v.trace with
    | (p, matched, q) :: _ => matched && p == q
    | [] => false

/-- The traversal loop of `traverse_from`, step for step, recording the
underlying positions that are dereferenced instead of the elements read. -/
def visit_from : Nat → remove_when_view α σ → Nat → Option (List Nat × remove_when_view α σ)
  | fuel, v, it =>
    if it = (view_end v).2 then some ([], v)
    else
      match fuel with
      | 0 => none
      | f + 1 =>
        match v.base[it]?, adaptor_next v it with
        | some _, some (v1, it1) =>
          match visit_from f v1 it1 with
          | some (ps, v2) => some (it :: ps, v2)
          | none => none
        | _, _ => none

/-- The positions dereferenced by a complete traversal: `begin()`, then the
loop up to `end()`. -/
def visit_view (fuel : Nat) (v : remove_when_view α σ) : Option (List Nat × remove_when_view α σ) :=
  match view_begin v with
  | some (v1, it) => visit_from fuel v1 it
  | none => none

/-- Two successive complete traversals of the same view, the second one on the
view as the first one left it: the elements yielded by each. -/
def traverse_twice (fuel : Nat) (v : remove_when_view α σ) : Option (List α × List α) :=
  match traverse_view fuel v with
  | some (ys1, v1) =>
    match traverse_view fuel v1 with
    | some (ys2, _) => some (ys1, ys2)
    | none => none
  | none => none

end remove_when_view

/-- A stateless matcher that reports a zero-length match at position 0, a match
of the single element at position 1, and no match elsewhere. -/
def match_zero_then_one : Matcher Unit :=
  fun s it _last =>
    if it = 0 then ((true, 0), s)
    else if it = 1 then ((true, 2), s)
    else ((false, it), s)

/-- The stateless matcher never reports a zero-length match before the
sentinel. -/
def no_zero_length (m : Matcher Unit) (n : Nat) : Prop :=
  ∀ p, p < n → (m () p n).1.1 = true → (m () p n).1.2 ≠ p

/-- Each match of the stateless matcher is maximal: the reported new position
is the sentinel or a position at which the matcher reports no match. -/
def match_maximal (m : Matcher Unit) (n : Nat) : Prop :=
  ∀ p, p < n → (m () p n).1.1 = true →
    (m () p n).1.2 = n ∨ (m () (m () p n).1.2 n).1.1 = false

/-- Reference walk, after the words of the claim: `walk(p)` is `[]` if `p` is
the sentinel, `walk(q)` if the matcher reports `(true, q)` at `p`, and the
element at `p` followed by `walk(p + 1)` otherwise.  One unit of fuel is spent
per step; `none` when fuel runs out or a position is out of range. -/
def walk_ref {α : Type} (rng : List α) (m : Matcher Unit) : Nat → Nat → Option (List α)
  | fuel, p =>
    if p = rng.length then some []
    else
      match fuel with
      | 0 => none
      | f + 1 =>
        if (m () p rng.length).1.1 then walk_ref rng m f (m () p rng.length).1.2
        else
          match rng[p]?, walk_ref rng m f (p + 1) with
          | some x, some ys => some (x :: ys)
          | _, _ => none

/-! ### The fixed-length overload of `view::c_str` -/

/-- Modelled from the spec: `ranges::subrange<Char *>` (view/subrange.hpp) is
not among the sources.  Per the spec, in the fixed-length case the sentinel is
"a concrete position of the same type": the view holds a begin and an end
position into the storage `base`. -/
structure subrange (α : Type) where
  base : List α
  first : Nat
  last : Nat

namespace subrange

variable {α : Type}

/-- Modelled from the spec: the traversal loop over a subrange, from a position
up to the end position, by the position protocol (equality with the sentinel,
dereference, advance).  One unit of fuel is spent per advance; `none` when fuel
runs out or the storage is read out of range. -/
def traverse_from (v : subrange α) : Nat → Nat → Option (List α)
  | fuel, p =>
    if p = v.last then some []
    else
      match fuel with
      | 0 => none
      | f + 1 =>
        match v.base[p]?, traverse_from v f (p + 1) with
        | some c, some ys => some (c :: ys)
        | _, _ => none

/-- A complete traversal from the begin position. -/
def traverse_all (v : subrange α) (fuel : Nat) : Option (List α) :=
  traverse_from v fuel v.first

end subrange

namespace view

/-- The call `c_str_fn::operator()(Char (&sz)[N])` (fixed-length overload):
`{&sz[0], &sz[N - 1]}`.  Characters are their codes; an array has `N ≥ 1`. -/
def c_str_array (sz : List Nat) : subrange Nat :=
  { base := sz, first := 0, last := sz.length - 1 }

end view

end ranges

namespace ranges.remove_when_view

variable {α σ : Type}

/-! ### Frame lemmas for `satisfy_forward` and `cache_begin` -/

theorem satisfy_forward_base (v : remove_when_view α σ) (it : Nat) :
    (satisfy_forward v it).1.base = v.base := by
  simp only [satisfy_forward]
  split_ifs <;> rfl

theorem satisfy_forward_pred (v : remove_when_view α σ) (it : Nat) :
    (satisfy_forward v it).1.pred = v.pred := by
  simp only [satisfy_forward]
  split_ifs <;> rfl

theorem satisfy_forward_begin_ (v : remove_when_view α σ) (it : Nat) :
    (satisfy_forward v it).1.begin_ = v.begin_ := by
  simp only [satisfy_forward]
  split_ifs <;> rfl

theorem satisfy_forward_base_end (v : remove_when_view α σ) (it : Nat) :
    base_end (satisfy_forward v it).1 = base_end v := by
  unfold base_end
  rw [satisfy_forward_base]

theorem cache_begin_base (v : remove_when_view α σ) : (cache_begin v).base = v.base := by
  unfold cache_begin
  split
  · rfl
  · simp [satisfy_forward_base]

theorem cache_begin_pred (v : remove_when_view α σ) : (cache_begin v).pred = v.pred := by
  unfold cache_begin
  split
  · rfl
  · simp [satisfy_forward_pred]

/-- After `cache_begin` the cache is populated. -/
theorem cache_begin_isSome (v : remove_when_view α σ) : (cache_begin v).begin_.isSome = true := by
  unfold cache_begin
  split
  · next b h => simp [h]
  · simp

/-- With a populated cache `cache_begin` is the identity. -/
theorem cache_begin_of_some (v : remove_when_view α σ) (b : Nat) (h : v.begin_ = some b) :
    cache_begin v = v := by
  unfold cache_begin
  rw [h]

/-! ### One operation keeps a populated cache -/

theorem step_begin_ (v v1 : remove_when_view α σ) (op : Op) (b : Nat)
    (hb : v.begin_ = some b) (h : step v op = some v1) : v1.begin_ = some b := by
  cases op with
  | begin =>
    simp only [step, view_begin, begin_adaptor, adaptor_begin, cache_begin_of_some v b hb, hb,
      Option.map_some', Option.some.injEq] at h
    rw [← h]; exact hb
  | end_ =>
    simp only [step, view_end, end_adaptor, Option.some.injEq] at h
    rw [← h]; exact hb
  | next it =>
    simp only [step, adaptor_next] at h
    split_ifs at h
    · simp only [Option.map_some', Option.some.injEq] at h
      rw [← h, satisfy_forward_begin_]; exact hb
    · cases h
  | satisfy it =>
    simp only [step, Option.some.injEq] at h
    rw [← h, satisfy_forward_begin_]; exact hb

theorem run_begin_ (ops : List Op) (v v2 : remove_when_view α σ) (b : Nat)
    (hb : v.begin_ = some b) (h : run v ops = some v2) : v2.begin_ = some b := by
  induction ops generalizing v with
  | nil =>
    simp only [run, Option.some.injEq] at h
    rw [← h]; exact hb
  | cons op ops ih =>
    simp only [run] at h
    cases hs : step v op with
    | none => rw [hs] at h; cases h
    | some v1 =>
      rw [hs] at h
      exact ih v1 (step_begin_ v v1 op b hb hs) h

/-! ### Unfolding the traversal loop -/

theorem traverse_from_end (fuel : Nat) (v : remove_when_view α σ) :
    traverse_from fuel v v.base.length = some ([], v) := by
  unfold traverse_from
  simp [view_end, end_adaptor]

theorem traverse_from_succ (f : Nat) (v : remove_when_view α σ) (it : Nat) (x : α)
    (hx : v.base[it]? = some x) :
    traverse_from (f + 1) v it =
      match traverse_from f (satisfy_forward v (it + 1)).1 (satisfy_forward v (it + 1)).2 with
      | some (ys, v2) => some (x :: ys, v2)
      | none => none := by
  have hlt : it < v.base.length := by
    rcases Nat.lt_or_ge it v.base.length with h | h
    · exact h
    · rw [List.getElem?_eq_none h] at hx; cases hx
  have hne : it ≠ v.base.length := Nat.ne_of_lt hlt
  rw [traverse_from]
  simp only [view_end, end_adaptor, hne, if_false, hx, adaptor_next, base_end, ne_eq,
    not_false_eq_true, if_true]

/-! ### Forward progress under the Match Function Contract -/

theorem satisfy_forward_bounds (v : remove_when_view α σ) (it : Nat)
    (hc : match_contract v.pred v.base.length) (h : it ≤ v.base.length) :
    it ≤ (satisfy_forward v it).2 ∧ (satisfy_forward v it).2 ≤ v.base.length := by
  simp only [satisfy_forward, base_end]
  split_ifs with hz hne hm
  · exact ⟨Nat.le_refl _, h⟩
  · exact hc v.st it (Nat.lt_of_le_of_ne h hne) hm
  · exact ⟨Nat.le_refl _, h⟩
  · exact ⟨Nat.le_refl _, h⟩

theorem traverse_from_total (fuel : Nat) :
    ∀ (v : remove_when_view α σ) (it : Nat), match_contract v.pred v.base.length →
      it ≤ v.base.length → v.base.length - it ≤ fuel →
      ∃ r, traverse_from fuel v it = some r := by
  induction fuel with
  | zero =>
    intro v it _ hle hf
    have : it = v.base.length := by omega
    rw [this]
    exact ⟨_, traverse_from_end 0 v⟩
  | succ f ih =>
    intro v it hc hle hf
    rcases Nat.eq_or_lt_of_le hle with heq | hlt
    · rw [heq]
      exact ⟨_, traverse_from_end _ v⟩
    · have hx : v.base[it]? = some (v.base[it]) := List.getElem?_eq_getElem hlt
      rw [traverse_from_succ f v it _ hx]
      have hb := satisfy_forward_bounds v (it + 1) hc hlt
      have hbase := satisfy_forward_base v (it + 1)
      have hpred := satisfy_forward_pred v (it + 1)
      obtain ⟨r, hr⟩ := ih (satisfy_forward v (it + 1)).1 (satisfy_forward v (it + 1)).2
        (by rw [hpred, hbase]; exact hc) (by rw [hbase]; exact hb.2) (by rw [hbase]; omega)
      rw [hr]
      exact ⟨_, rfl⟩

/-! ### Traversal when the matcher reports no match any more -/

theorem satisfy_forward_no_match (v : remove_when_view α σ) (Fired : σ → Prop) (it : Nat)
    (hlater : ∀ s p, Fired s → 0 < p →
      (v.pred s p v.base.length).1.1 = false ∧ Fired (v.pred s p v.base.length).2)
    (hf : Fired v.st) (hz : v.zero_ = false) (hit : 0 < it) :
    (satisfy_forward v it).2 = it ∧ Fired (satisfy_forward v it).1.st ∧
      (satisfy_forward v it).1.zero_ = false := by
  have h := hlater v.st it hf hit
  simp only [satisfy_forward, base_end, hz]
  by_cases hne : it = v.base.length
  · simp only [Bool.false_eq_true, if_false, ne_eq, hne, not_true_eq_false]
    exact ⟨trivial, hf, hz⟩
  · simp only [Bool.false_eq_true, if_false, ne_eq, hne, not_false_eq_true, if_true, h.1]
    exact ⟨trivial, h.2, trivial⟩

theorem traverse_from_no_match (rng : List α) (m : Matcher σ) (Fired : σ → Prop)
    (hlater : ∀ s p, Fired s → 0 < p →
      (m s p rng.length).1.1 = false ∧ Fired (m s p rng.length).2) (fuel : Nat) :
    ∀ (v : remove_when_view α σ) (p : Nat), v.base = rng → v.pred = m → Fired v.st →
      v.zero_ = false → 0 < p → p ≤ rng.length → rng.length - p ≤ fuel →
      ∃ v2, traverse_from fuel v p = some (rng.drop p, v2) := by
  induction fuel with
  | zero =>
    intro v p hb _ _ _ _ hle hfu
    have hp : p = v.base.length := by rw [hb]; omega
    rw [hp, traverse_from_end, hb, List.drop_length]
    exact ⟨v, rfl⟩
  | succ f ih =>
    intro v p hb hp hf hz hpos hle hfu
    rcases Nat.eq_or_lt_of_le hle with heq | hlt
    · have hp2 : p = v.base.length := by rw [hb]; exact heq
      rw [hp2, traverse_from_end, hb, List.drop_length]
      exact ⟨v, rfl⟩
    · have hx : v.base[p]? = some (rng[p]) := by
        subst hb; exact List.getElem?_eq_getElem hlt
      rw [traverse_from_succ f v p _ hx]
      have hs := satisfy_forward_no_match v Fired (p + 1)
        (by rw [hp, hb]; exact hlater) hf hz (Nat.succ_pos p)
      obtain ⟨v2, h2⟩ := ih (satisfy_forward v (p + 1)).1 (p + 1)
        (by rw [satisfy_forward_base, hb]) (by rw [satisfy_forward_pred, hp]) hs.2.1 hs.2.2
        (Nat.succ_pos p) hlt (by omega)
      rw [hs.1, h2]
      exact ⟨v2, by rw [List.drop_eq_getElem_cons hlt]⟩

/-! ### One call of `satisfy_forward` -/

theorem satisfy_forward_zero_set (v : remove_when_view α σ) (it : Nat) (hz : v.zero_ = true) :
    satisfy_forward v it = ({ v with zero_ := false }, it) := by
  simp [satisfy_forward, hz]

end ranges.remove_when_view

namespace ranges.delimit_view

variable {α : Type} [DecidableEq α]

/-! ### Traversal of a delimited view -/

theorem traverse_from_takeWhile (v : delimit_view α) (fuel : Nat) :
    ∀ p, v.value ∈ v.base.drop p → (v.base.drop p).length ≤ fuel →
      traverse_from v fuel p = some ((v.base.drop p).takeWhile (fun c => decide (c ≠ v.value))) := by
  induction fuel with
  | zero =>
    intro p hmem hlen
    have : v.base.drop p = [] := List.eq_nil_of_length_eq_zero (Nat.le_zero.mp hlen)
    rw [this] at hmem
    cases hmem
  | succ f ih =>
    intro p hmem hlen
    have hp : p < v.base.length := by
      rcases Nat.lt_or_ge p v.base.length with h | h
      · exact h
      · rw [List.drop_eq_nil_of_le h] at hmem; cases hmem
    have hd : v.base.drop p = v.base[p] :: v.base.drop (p + 1) := List.drop_eq_getElem_cons hp
    have hx : v.base[p]? = some v.base[p] := List.getElem?_eq_getElem hp
    rw [hd] at hmem hlen ⊢
    rw [traverse_from]
    by_cases hc : v.base[p] = v.value
    · simp [at_end, hx, hc]
    · have hmem2 : v.value ∈ v.base.drop (p + 1) := by
        rcases List.mem_cons.mp hmem with h | h
        · exact absurd h.symm hc
        · exact h
      have hlen2 : (v.base.drop (p + 1)).length ≤ f := by
        simp only [List.length_cons] at hlen; omega
      simp only [at_end, hx, hc, decide_False, ih (p + 1) hmem2 hlen2]
      rw [List.takeWhile_cons]
      simp only [ne_eq, hc, not_false_eq_true, decide_True, if_true]

end ranges.delimit_view

namespace ranges

/-! ### Runs of adjacent equal elements -/

section runs

variable {α : Type} [DecidableEq α]

theorem outside_runs_aux_some (x : α) : ∀ l : List α,
    outside_runs_aux (some x) l = outside_runs_aux none (l.dropWhile (fun c => decide (c = x)))
  | [] => by simp [outside_runs_aux]
  | y :: t => by
    by_cases h : y = x
    · subst h
      rw [List.dropWhile_cons_of_pos (by simp), outside_runs_aux]
      simp only [true_or, if_true]
      exact outside_runs_aux_some y t
    · rw [List.dropWhile_cons_of_neg (by simpa using h), outside_runs_aux, outside_runs_aux]
      have h1 : ¬ (some x = some y) := fun e => h (Option.some.inj e).symm
      simp [h1]

theorem outside_runs_match (x : α) (t : List α) :
    outside_runs (x :: x :: t) =
      outside_runs ((x :: x :: t).dropWhile (fun c => decide (c = x))) := by
  unfold outside_runs
  rw [outside_runs_aux]
  simp only [List.head?_cons, or_true, if_true]
  rw [outside_runs_aux_some]
  simp only [List.dropWhile_cons, decide_True, if_true]

theorem outside_runs_nomatch (x : α) (rest : List α) (h : rest.head? ≠ some x) :
    outside_runs (x :: rest) = x :: outside_runs rest := by
  unfold outside_runs
  rw [outside_runs_aux]
  have h0 : ¬ ((none : Option α) = some x ∨ rest.head? = some x) := by
    rintro (h1 | h1)
    · cases h1
    · exact h h1
  rw [if_neg h0, outside_runs_aux_some]
  cases rest with
  | nil => rfl
  | cons y t =>
    have hy : ¬ y = x := fun e => h (by simp [e])
    rw [List.dropWhile_cons_of_neg (by simpa using hy)]

theorem no_chained_runs_tail (a : α) (l : List α) (h : no_chained_runs (a :: l) = true) :
    no_chained_runs l = true := by
  unfold no_chained_runs at h
  rw [Bool.and_eq_true] at h
  exact h.2

theorem no_chained_runs_dropWhile (P : α → Bool) : ∀ l : List α,
    no_chained_runs l = true → no_chained_runs (l.dropWhile P) = true
  | [], h => by simpa using h
  | a :: l, h => by
    rw [List.dropWhile_cons]
    split
    · exact no_chained_runs_dropWhile P l (no_chained_runs_tail a l h)
    · exact h

theorem no_chained_runs_after_run (x : α) : ∀ (l : List α) (z w : α) (t : List α),
    no_chained_runs (x :: x :: l) = true →
    l.dropWhile (fun c => decide (c = x)) = z :: w :: t → z ≠ w
  | [], z, w, t, _, hd => by simp at hd
  | y :: l, z, w, t, h, hd => by
    by_cases hy : y = x
    · subst hy
      rw [List.dropWhile_cons_of_pos (by simp)] at hd
      exact no_chained_runs_after_run y l z w t (no_chained_runs_tail y _ h) hd
    · rw [List.dropWhile_cons_of_neg (by simpa using hy)] at hd
      cases hd
      unfold no_chained_runs at h
      rw [Bool.and_eq_true] at h
      have h1 := h.1
      simp only [decide_True, Bool.true_and, Bool.not_eq_true', Bool.and_eq_false_iff,
        decide_eq_false_iff_not, ne_eq, Decidable.not_not] at h1
      rcases h1 with h1 | h1
      · exact absurd h1.symm hy
      · exact h1

theorem match_run_nomatch (pre : List α) (x : α) (rest : List α) (s : Unit) (last : Nat)
    (h : rest.head? ≠ some x) :
    match_run (pre ++ x :: rest) s pre.length last = ((false, pre.length), s) := by
  have h1 : pre.length + 1 - pre.length = 1 := by omega
  unfold match_run
  rw [List.getElem?_append_right (Nat.le_refl _),
    List.getElem?_append_right (Nat.le_add_right _ 1)]
  simp only [Nat.sub_self, List.getElem?_cons_zero, h1, List.getElem?_cons_succ]
  cases rest with
  | nil => rfl
  | cons y t =>
    have hy : ¬ x = y := fun e => h (by simp [e])
    simp [hy]

theorem match_run_match (pre : List α) (x : α) (t : List α) (s : Unit) (last : Nat) :
    match_run (pre ++ x :: x :: t) s pre.length last =
      ((true, pre.length + ((x :: x :: t).takeWhile (fun c => decide (c = x))).length), s) := by
  have h1 : pre.length + 1 - pre.length = 1 := by omega
  unfold match_run
  rw [List.getElem?_append_right (Nat.le_refl _),
    List.getElem?_append_right (Nat.le_add_right _ 1), List.drop_left]
  simp [h1]

end runs

end ranges

namespace ranges.remove_when_view

variable {α σ : Type}

/-! ### `satisfy_forward` by cases, with `zero_` clear -/

theorem satisfy_forward_at_end (v : remove_when_view α σ) (hz : v.zero_ = false) :
    satisfy_forward v v.base.length = (v, v.base.length) := by
  simp [satisfy_forward, base_end, hz]

theorem satisfy_forward_of_no_match (v : remove_when_view α σ) (it : Nat) (hz : v.zero_ = false)
    (hm : (v.pred v.st it v.base.length).1.1 = false) :
    (satisfy_forward v it).2 = it := by
  simp only [satisfy_forward, base_end, hz, hm]
  split_ifs <;> rfl

theorem satisfy_forward_of_match (v : remove_when_view α σ) (it : Nat) (hz : v.zero_ = false)
    (hne : it ≠ v.base.length) (hm : (v.pred v.st it v.base.length).1.1 = true) :
    (satisfy_forward v it).2 = (v.pred v.st it v.base.length).1.2 := by
  simp [satisfy_forward, base_end, hz, hm, hne]

theorem satisfy_forward_zero_clear (v : remove_when_view α σ) (it : Nat) (hz : v.zero_ = false)
    (hprog : ∀ s p, (v.pred s p v.base.length).1.1 = true → p < (v.pred s p v.base.length).1.2) :
    (satisfy_forward v it).1.zero_ = false := by
  by_cases hne : it = v.base.length
  · simp only [satisfy_forward, base_end, hz, Bool.false_eq_true, if_false, ne_eq, hne,
      not_true_eq_false]
  · by_cases hm : (v.pred v.st it v.base.length).1.1 = true
    · have := hprog v.st it hm
      simp only [satisfy_forward, base_end, hz, Bool.false_eq_true, if_false, ne_eq, hne,
        not_false_eq_true, if_true, hm, decide_eq_false_iff_not]
      omega
    · simp only [satisfy_forward, base_end, hz, Bool.false_eq_true, if_false, ne_eq, hne,
        not_false_eq_true, if_true, hm]

end ranges.remove_when_view

namespace ranges

/-! ### Traversal with the run matcher -/

section run_traversal

open remove_when_view

variable {α : Type} [DecidableEq α]

theorem match_run_progress (rng : List α) (s : Unit) (it last : Nat)
    (h : (match_run rng s it last).1.1 = true) : it < (match_run rng s it last).1.2 := by
  unfold match_run at h ⊢
  rcases Nat.lt_or_ge it rng.length with hlt | hge
  · rw [List.getElem?_eq_getElem hlt] at h ⊢
    cases h2 : rng[it + 1]? with
    | none => rw [h2] at h; simp at h
    | some y =>
      rw [h2] at h
      simp only at h ⊢
      by_cases hxy : rng[it] = y
      · simp only [hxy, if_true]
        rw [List.drop_eq_getElem_cons hlt, List.takeWhile_cons]
        simp [hxy]
      · simp [hxy] at h
  · rw [List.getElem?_eq_none hge] at h
    simp at h

theorem traverse_from_match_run (rng : List α) (fuel : Nat) :
    ∀ (pre suf : List α) (v u : remove_when_view α Unit), pre ++ suf = rng →
      v.base = rng → v.pred = match_run rng → v.zero_ = false →
      u.base = rng → u.pred = match_run rng → u.zero_ = false →
      no_chained_runs suf = true → suf.length ≤ fuel →
      ∃ v2, traverse_from fuel u (satisfy_forward v pre.length).2 = some (outside_runs suf, v2) := by
  induction fuel with
  | zero =>
    intro pre suf v u hrng hvb _ hvz hub _ _ _ hlen
    have hs : suf = [] := List.eq_nil_of_length_eq_zero (Nat.le_zero.mp hlen)
    subst hs
    have hp : pre.length = v.base.length := by rw [hvb, ← hrng]; simp
    rw [hp, satisfy_forward_at_end v hvz]
    have : v.base.length = u.base.length := by rw [hvb, hub]
    rw [this, traverse_from_end]
    exact ⟨u, rfl⟩
  | succ f ih =>
    intro pre suf v u hrng hvb hvp hvz hub hup huz hnc hlen
    cases suf with
    | nil =>
      have hp : pre.length = v.base.length := by rw [hvb, ← hrng]; simp
      rw [hp, satisfy_forward_at_end v hvz]
      have : v.base.length = u.base.length := by rw [hvb, hub]
      rw [this, traverse_from_end]
      exact ⟨u, rfl⟩
    | cons x rest =>
      have hne : pre.length ≠ v.base.length := by
        rw [hvb, ← hrng]; simp
      have hprog : ∀ (w : remove_when_view α Unit), w.base = rng → w.pred = match_run rng →
          ∀ s p, (w.pred s p w.base.length).1.1 = true → p < (w.pred s p w.base.length).1.2 := by
        intro w _ hwp s p h
        rw [hwp] at h ⊢
        exact match_run_progress rng s p _ h
      by_cases hr : rest.head? = some x
      · obtain ⟨t, rfl⟩ : ∃ t, rest = x :: t := by
          cases rest with
          | nil => simp at hr
          | cons y t => simp at hr; exact ⟨t, by rw [hr]⟩
        have hm : v.pred v.st pre.length v.base.length =
            ((true, pre.length +
              ((x :: x :: t).takeWhile (fun c => decide (c = x))).length), v.st) := by
          rw [hvp, ← hrng]
          exact match_run_match pre x t v.st _
        have hq := satisfy_forward_of_match v pre.length hvz hne (by rw [hm])
        rw [hq, hm]
        have hsplit := List.takeWhile_append_dropWhile (fun c => decide (c = x)) (x :: x :: t)
        have hub2 : u.base = (pre ++ (x :: x :: t).takeWhile (fun c => decide (c = x))) ++
            (x :: x :: t).dropWhile (fun c => decide (c = x)) := by
          rw [hub, ← hrng, List.append_assoc, hsplit]
        have hk : 2 ≤ ((x :: x :: t).takeWhile (fun c => decide (c = x))).length := by
          simp [List.takeWhile_cons]
        have hlen2 : ((x :: x :: t).takeWhile (fun c => decide (c = x))).length +
            ((x :: x :: t).dropWhile (fun c => decide (c = x))).length = (x :: x :: t).length := by
          rw [← List.length_append, hsplit]
        have hnc2 := no_chained_runs_dropWhile (fun c => decide (c = x)) _ hnc
        rw [outside_runs_match]
        generalize hdw : (x :: x :: t).dropWhile (fun c => decide (c = x)) = dw at hub2 hlen2 hnc2 ⊢
        generalize htw : (x :: x :: t).takeWhile (fun c => decide (c = x)) = tw at hub2 hlen2 hk ⊢
        cases dw with
        | nil =>
          have hend : pre.length + tw.length = u.base.length := by
            rw [hub2]; simp
          rw [hend, traverse_from_end]
          exact ⟨u, rfl⟩
        | cons z rest2 =>
          have hx : u.base[pre.length + tw.length]? = some z := by
            rw [hub2, List.getElem?_append_right (by simp)]
            simp
          rw [traverse_from_succ f u _ z hx]
          have hz2 : rest2.head? ≠ some z := by
            cases rest2 with
            | nil => simp
            | cons w t2 =>
              have hd1 : t.dropWhile (fun c => decide (c = x)) = z :: w :: t2 := by
                rw [← hdw]
                simp only [List.dropWhile_cons, decide_True, if_true]
              have := no_chained_runs_after_run x t z w t2 hnc hd1
              simpa using fun e => this e.symm
          obtain ⟨v2, h2⟩ := ih (pre ++ tw ++ [z]) rest2 u (satisfy_forward u
              (pre.length + tw.length + 1)).1
            (by rw [← hub, hub2]; simp) hub hup huz
            (by rw [satisfy_forward_base, hub]) (by rw [satisfy_forward_pred, hup])
            (satisfy_forward_zero_clear u _ huz (hprog u hub hup))
            (no_chained_runs_tail z rest2 hnc2)
            (by simp only [List.length_cons] at hlen hlen2 ⊢; omega)
          have hl : (pre ++ tw ++ [z]).length = pre.length + tw.length + 1 := by
            simp only [List.length_append, List.length_cons, List.length_nil]
          rw [hl] at h2
          rw [h2, outside_runs_nomatch z rest2 hz2]
          exact ⟨v2, rfl⟩
      · have hm : v.pred v.st pre.length v.base.length = ((false, pre.length), v.st) := by
          rw [hvp, ← hrng]
          exact match_run_nomatch pre x rest v.st _ hr
        rw [satisfy_forward_of_no_match v pre.length hvz (by rw [hm])]
        have hx : u.base[pre.length]? = some x := by
          rw [hub, ← hrng, List.getElem?_append_right (Nat.le_refl _)]
          simp
        rw [traverse_from_succ f u _ x hx]
        obtain ⟨v2, h2⟩ := ih (pre ++ [x]) rest u (satisfy_forward u (pre.length + 1)).1
          (by rw [← hrng]; simp) hub hup huz
          (by rw [satisfy_forward_base, hub]) (by rw [satisfy_forward_pred, hup])
          (satisfy_forward_zero_clear u _ huz (hprog u hub hup))
          (no_chained_runs_tail x rest hnc)
          (by simp only [List.length_cons] at hlen; omega)
        have hl : (pre ++ [x]).length = pre.length + 1 := by simp
        rw [hl] at h2
        rw [h2, outside_runs_nomatch x rest hr]
        exact ⟨v2, rfl⟩

end run_traversal

end ranges

namespace ranges.remove_when_view

variable {α σ : Type}

/-! ### Invariants of operation sequences and of the traversal loop -/

theorem cache_begin_of_none (v : remove_when_view α σ) (h : v.begin_ = none) :
    cache_begin v =
      { (satisfy_forward { v with zero_ := false } 0).1 with
        begin_ := some (satisfy_forward { v with zero_ := false } 0).2 } := by
  unfold cache_begin
  rw [h]
  rfl

theorem step_invariant (P : remove_when_view α σ → Prop)
    (hsf : ∀ v it, P v → P (satisfy_forward v it).1)
    (hcb : ∀ v, P v → P (cache_begin v))
    (v v1 : remove_when_view α σ) (op : Op) (hv : P v) (h : step v op = some v1) : P v1 := by
  cases op with
  | begin =>
    simp only [step, view_begin, begin_adaptor, adaptor_begin] at h
    cases hb : (cache_begin v).begin_ with
    | none => rw [hb] at h; cases h
    | some b =>
      rw [hb] at h
      simp only [Option.map_some', Option.some.injEq] at h
      rw [← h]; exact hcb v hv
  | end_ =>
    simp only [step, view_end, end_adaptor, Option.some.injEq] at h
    rw [← h]; exact hv
  | next it =>
    simp only [step, adaptor_next] at h
    split_ifs at h
    · simp only [Option.map_some', Option.some.injEq] at h
      rw [← h]; exact hsf v _ hv
    · cases h
  | satisfy it =>
    simp only [step, Option.some.injEq] at h
    rw [← h]; exact hsf v _ hv

theorem run_invariant (P : remove_when_view α σ → Prop)
    (hsf : ∀ v it, P v → P (satisfy_forward v it).1)
    (hcb : ∀ v, P v → P (cache_begin v)) (ops : List Op) :
    ∀ (v v2 : remove_when_view α σ), P v → run v ops = some v2 → P v2 := by
  induction ops with
  | nil =>
    intro v v2 hv h
    simp only [run, Option.some.injEq] at h
    rw [← h]; exact hv
  | cons op ops ih =>
    intro v v2 hv h
    simp only [run] at h
    cases hs : step v op with
    | none => rw [hs] at h; cases h
    | some v1 =>
      rw [hs] at h
      exact ih v1 v2 (step_invariant P hsf hcb v v1 op hv hs) h

theorem traverse_from_invariant (P : remove_when_view α σ → Prop)
    (hsf : ∀ v it, P v → P (satisfy_forward v it).1) (fuel : Nat) :
    ∀ (v : remove_when_view α σ) (it : Nat) (r : List α × remove_when_view α σ),
      P v → traverse_from fuel v it = some r → P r.2 := by
  induction fuel with
  | zero =>
    intro v it r hv h
    unfold traverse_from at h
    split_ifs at h
    simp only [Option.some.injEq] at h
    rw [← h]; exact hv
  | succ f ih =>
    intro v it r hv h
    by_cases hit : it = v.base.length
    · rw [hit, traverse_from_end] at h
      simp only [Option.some.injEq] at h
      rw [← h]; exact hv
    · cases hx : v.base[it]? with
      | none =>
        unfold traverse_from at h
        simp [view_end, end_adaptor, hit, hx] at h
      | some x =>
        rw [traverse_from_succ f v it x hx] at h
        cases ht : traverse_from f (satisfy_forward v (it + 1)).1 (satisfy_forward v (it + 1)).2 with
        | none => rw [ht] at h; cases h
        | some r1 =>
          rw [ht] at h
          simp only [Option.some.injEq] at h
          rw [← h]
          exact ih _ _ r1 (hsf v _ hv) ht

theorem traverse_view_invariant (P : remove_when_view α σ → Prop)
    (hsf : ∀ v it, P v → P (satisfy_forward v it).1)
    (hcb : ∀ v, P v → P (cache_begin v)) (fuel : Nat)
    (v : remove_when_view α σ) (r : List α × remove_when_view α σ)
    (hv : P v) (h : traverse_view fuel v = some r) : P r.2 := by
  simp only [traverse_view, view_begin, begin_adaptor, adaptor_begin] at h
  cases hb : (cache_begin v).begin_ with
  | none => rw [hb] at h; cases h
  | some b =>
    rw [hb] at h
    exact traverse_from_invariant P hsf fuel _ _ r (hcb v hv) h

/-! ### The zero flag and the trace of matcher invocations -/

theorem satisfy_forward_zero_flag_ok (v : remove_when_view α σ) (it : Nat) :
    zero_flag_ok (satisfy_forward v it).1 = true := by
  simp only [satisfy_forward]
  split_ifs with h1 h2 h3
  · simp [zero_flag_ok]
  · simp only [zero_flag_ok, h3, Bool.true_and, Bool.or_eq_true, Bool.not_eq_true',
      decide_eq_false_iff_not, beq_iff_eq]
    exact (Decidable.em _).symm
  · have hz : v.zero_ = false := by simpa using h1
    simp [zero_flag_ok, hz]
  · have hz : v.zero_ = false := by simpa using h1
    simp [zero_flag_ok, hz]

theorem cache_begin_zero_flag_ok (v : remove_when_view α σ)
    (h : v.begin_ = none ∨ zero_flag_ok v = true) : zero_flag_ok (cache_begin v) = true := by
  cases hb : v.begin_ with
  | none =>
    rw [cache_begin_of_none v hb]
    exact satisfy_forward_zero_flag_ok { v with zero_ := false } 0
  | some b =>
    rw [cache_begin_of_some v b hb]
    rcases h with h | h
    · rw [hb] at h; cases h
    · exact h

theorem satisfy_forward_trace (n : Nat) (v : remove_when_view α σ) (it : Nat)
    (hv : v.base.length = n ∧ ∀ e ∈ v.trace, e.1 ≠ n) :
    (satisfy_forward v it).1.base.length = n ∧ ∀ e ∈ (satisfy_forward v it).1.trace, e.1 ≠ n := by
  refine ⟨by rw [satisfy_forward_base]; exact hv.1, ?_⟩
  simp only [satisfy_forward, base_end]
  split_ifs with h1 h2 h3
  · exact hv.2
  · intro e he
    rcases List.mem_cons.mp he with h | h
    · rw [h]; rw [← hv.1]; exact h2
    · exact hv.2 e h
  · intro e he
    rcases List.mem_cons.mp he with h | h
    · rw [h]; rw [← hv.1]; exact h2
    · exact hv.2 e h
  · exact hv.2

theorem cache_begin_trace (n : Nat) (v : remove_when_view α σ)
    (hv : v.base.length = n ∧ ∀ e ∈ v.trace, e.1 ≠ n) :
    (cache_begin v).base.length = n ∧ ∀ e ∈ (cache_begin v).trace, e.1 ≠ n := by
  cases hb : v.begin_ with
  | none =>
    rw [cache_begin_of_none v hb]
    exact satisfy_forward_trace n { v with zero_ := false } 0 hv
  | some b =>
    rw [cache_begin_of_some v b hb]
    exact hv

end ranges.remove_when_view

namespace ranges.subrange

variable {α : Type}

/-! ### Traversal of a subrange -/

theorem traverse_from_take (v : subrange α) (fuel : Nat) :
    ∀ p, p ≤ v.last → v.last ≤ v.base.length → v.last - p ≤ fuel →
      traverse_from v fuel p = some ((v.base.drop p).take (v.last - p)) := by
  induction fuel with
  | zero =>
    intro p hp _ hf
    have : p = v.last := by omega
    unfold traverse_from
    simp [this]
  | succ f ih =>
    intro p hp hl hf
    rcases Nat.eq_or_lt_of_le hp with heq | hlt
    · unfold traverse_from
      simp [heq]
    · have hpl : p < v.base.length := by omega
      have hx : v.base[p]? = some v.base[p] := List.getElem?_eq_getElem hpl
      have hne : p ≠ v.last := Nat.ne_of_lt hlt
      rw [traverse_from]
      simp only [hne, if_false, hx, ih (p + 1) hlt hl (by omega)]
      have hk : v.last - p = (v.last - (p + 1)) + 1 := by omega
      rw [List.drop_eq_getElem_cons hpl, hk, List.take_succ_cons]

end ranges.subrange

namespace ranges

/-! ### A well-formed string: non-zero characters followed by one zero -/

theorem well_formed_split (sz : List Nat) (hN : 1 ≤ sz.length)
    (hlast : sz[sz.length - 1]? = some 0) :
    sz = sz.take (sz.length - 1) ++ [0] := by
  have hlt : sz.length - 1 < sz.length := by omega
  have h0 : sz[sz.length - 1] = 0 := by
    rw [List.getElem?_eq_getElem hlt] at hlast
    exact Option.some.inj hlast
  have hd : sz.drop (sz.length - 1) = [0] := by
    rw [List.drop_eq_getElem_cons hlt, h0]
    have : sz.length - 1 + 1 = sz.length := by omega
    rw [this, List.drop_length]
  conv_lhs => rw [← List.take_append_drop (sz.length - 1) sz, hd]

theorem well_formed_body (sz : List Nat)
    (hbody : ∀ i, i < sz.length - 1 → sz[i]? ≠ some 0) :
    ∀ c ∈ sz.take (sz.length - 1), c ≠ 0 := by
  intro c hc h0
  obtain ⟨i, hi, hget⟩ := List.getElem_of_mem hc
  have hi2 : i < sz.length - 1 := by
    have := hi
    simp only [List.length_take] at this
    omega
  apply hbody i hi2
  rw [List.getElem_take] at hget
  rw [List.getElem?_eq_getElem (by omega), hget, h0]

end ranges

namespace ranges.remove_when_view

variable {α σ : Type}

/-! ### Positions visited by the traversal loop -/

theorem visit_from_end (fuel : Nat) (v : remove_when_view α σ) :
    visit_from fuel v v.base.length = some ([], v) := by
  unfold visit_from
  simp [view_end, end_adaptor]

theorem visit_from_succ (f : Nat) (v : remove_when_view α σ) (it : Nat) (x : α)
    (hx : v.base[it]? = some x) :
    visit_from (f + 1) v it =
      match visit_from f (satisfy_forward v (it + 1)).1 (satisfy_forward v (it + 1)).2 with
      | some (ps, v2) => some (it :: ps, v2)
      | none => none := by
  have hlt : it < v.base.length := by
    rcases Nat.lt_or_ge it v.base.length with h | h
    · exact h
    · rw [List.getElem?_eq_none h] at hx; cases hx
  have hne : it ≠ v.base.length := Nat.ne_of_lt hlt
  rw [visit_from]
  simp only [view_end, end_adaptor, hne, if_false, hx, adaptor_next, base_end, ne_eq,
    not_false_eq_true, if_true]

theorem visit_from_spec (rng : List α) (fuel : Nat) :
    ∀ (v : remove_when_view α σ) (it : Nat), v.base = rng →
      match_contract v.pred rng.length → it ≤ rng.length → rng.length - it ≤ fuel →
      ∃ ps v2, visit_from fuel v it = some (ps, v2) ∧
        traverse_from fuel v it = some (ps.filterMap (fun p => rng[p]?), v2) ∧
        (∀ p ∈ ps, it ≤ p ∧ p < rng.length) ∧ ps.Pairwise (fun a b => a < b) ∧
        (ps.filterMap (fun p => rng[p]?)).Sublist (rng.drop it) := by
  induction fuel with
  | zero =>
    intro v it hb _ hle hf
    have hit : it = v.base.length := by rw [hb]; omega
    rw [hit, visit_from_end, traverse_from_end]
    exact ⟨[], v, rfl, rfl, by simp, List.Pairwise.nil, by simp⟩
  | succ f ih =>
    intro v it hb hc hle hf
    rcases Nat.eq_or_lt_of_le hle with heq | hlt
    · have hit : it = v.base.length := by rw [hb]; exact heq
      rw [hit, visit_from_end, traverse_from_end]
      exact ⟨[], v, rfl, rfl, by simp, List.Pairwise.nil, by simp⟩
    · have hx : v.base[it]? = some (rng[it]) := by
        subst hb; exact List.getElem?_eq_getElem hlt
      have hbd := satisfy_forward_bounds v (it + 1) (by rw [hb]; exact hc)
        (by rw [hb]; exact hlt)
      rw [hb] at hbd
      obtain ⟨ps, v2, h1, h2, h3, h4, h5⟩ := ih (satisfy_forward v (it + 1)).1
        (satisfy_forward v (it + 1)).2 (by rw [satisfy_forward_base, hb])
        (by rw [satisfy_forward_pred]; exact hc) hbd.2 (by omega)
      rw [visit_from_succ f v it _ hx, traverse_from_succ f v it _ hx, h1, h2]
      refine ⟨it :: ps, v2, rfl, ?_, ?_, ?_, ?_⟩
      · simp [List.filterMap_cons, List.getElem?_eq_getElem hlt]
      · intro p hp
        rcases List.mem_cons.mp hp with h | h
        · rw [h]; exact ⟨Nat.le_refl _, hlt⟩
        · have := h3 p h
          exact ⟨by omega, this.2⟩
      · refine List.Pairwise.cons ?_ h4
        intro p hp
        have := h3 p hp
        omega
      · rw [List.filterMap_cons, List.getElem?_eq_getElem hlt, List.drop_eq_getElem_cons hlt]
        exact List.Sublist.cons₂ _ (h5.trans (List.drop_sublist_drop_left rng hbd.1))

/-! ### `satisfy_forward` keeps `zero_` clear when the match is not empty -/

theorem satisfy_forward_zero_clear_of (v : remove_when_view α σ) (it : Nat)
    (hz : v.zero_ = false)
    (h : it ≠ v.base.length → (v.pred v.st it v.base.length).1.1 = true →
      (v.pred v.st it v.base.length).1.2 ≠ it) :
    (satisfy_forward v it).1.zero_ = false := by
  by_cases hne : it = v.base.length
  · simp only [satisfy_forward, base_end, hz, Bool.false_eq_true, if_false, ne_eq, hne,
      not_true_eq_false]
  · by_cases hm : (v.pred v.st it v.base.length).1.1 = true
    · have := h hne hm
      simp only [satisfy_forward, base_end, hz, Bool.false_eq_true, if_false, ne_eq, hne,
        not_false_eq_true, if_true, hm, decide_eq_false_iff_not]
      exact fun e => this e.symm
    · simp only [satisfy_forward, base_end, hz, Bool.false_eq_true, if_false, ne_eq, hne,
        not_false_eq_true, if_true, hm]

end ranges.remove_when_view

namespace ranges

/-! ### The reference walk -/

section walk

open remove_when_view

variable {α : Type}

theorem walk_ref_end (rng : List α) (m : Matcher Unit) (fuel : Nat) :
    walk_ref rng m fuel rng.length = some [] := by
  unfold walk_ref
  simp

theorem walk_ref_match (rng : List α) (m : Matcher Unit) (f p : Nat) (hp : p ≠ rng.length)
    (hm : (m () p rng.length).1.1 = true) :
    walk_ref rng m (f + 1) p = walk_ref rng m f (m () p rng.length).1.2 := by
  rw [walk_ref]
  simp only [hp, if_false, hm, if_true]

theorem walk_ref_nomatch (rng : List α) (m : Matcher Unit) (f p : Nat) (hp : p < rng.length)
    (hm : (m () p rng.length).1.1 = false) :
    walk_ref rng m (f + 1) p =
      match walk_ref rng m f (p + 1) with
      | some ys => some (rng[p] :: ys)
      | none => none := by
  rw [walk_ref]
  simp only [Nat.ne_of_lt hp, if_false, hm, Bool.false_eq_true, List.getElem?_eq_getElem hp]
  cases walk_ref rng m f (p + 1) <;> rfl

end walk

end ranges

namespace ranges

/-! ### The traversal follows the reference walk -/

section walk_traversal

open remove_when_view

variable {α : Type}

theorem traverse_from_walk_ref (rng : List α) (m : Matcher Unit)
    (hc : match_contract m rng.length) (hnz : no_zero_length m rng.length)
    (hmax : match_maximal m rng.length) (k : Nat) :
    ∀ (p fT fW : Nat) (v u : remove_when_view α Unit), v.base = rng → v.pred = m →
      v.zero_ = false → u.base = rng → u.pred = m → u.zero_ = false →
      p ≤ rng.length → rng.length - p ≤ k → rng.length - p ≤ fT → rng.length - p ≤ fW →
      ∃ ys v2, traverse_from fT u (satisfy_forward v p).2 = some (ys, v2) ∧
        walk_ref rng m fW p = some ys := by
  induction k with
  | zero =>
    intro p fT fW v u hvb _ hvz hub _ _ hle hk _ _
    have hp : p = rng.length := by omega
    have hend : satisfy_forward v p = (v, p) := by
      have := satisfy_forward_at_end v hvz
      rw [hvb, ← hp] at this; exact this
    have ht : traverse_from fT u rng.length = some ([], u) := by
      have := traverse_from_end fT u
      rw [hub] at this; exact this
    rw [hend]
    simp only
    rw [hp, ht, walk_ref_end]
    exact ⟨[], u, rfl, rfl⟩
  | succ k ih =>
    intro p fT fW v u hvb hvp hvz hub hup huz hle hk hfT hfW
    have ht_end : ∀ f, traverse_from f u rng.length = some ([], u) := by
      intro f
      have := traverse_from_end f u
      rw [hub] at this; exact this
    rcases Nat.eq_or_lt_of_le hle with hp | hlt
    · have hend : satisfy_forward v p = (v, p) := by
        have := satisfy_forward_at_end v hvz
        rw [hvb, ← hp] at this; exact this
      rw [hend]
      simp only
      rw [hp, ht_end, walk_ref_end]
      exact ⟨[], u, rfl, rfl⟩
    · -- a position before the sentinel where the matcher reports no match is emitted
      have emit : ∀ r, p ≤ r → r < rng.length → (m () r rng.length).1.1 = false →
          ∀ gT gW, rng.length - r ≤ gT → rng.length - r ≤ gW →
          ∃ ys v2, traverse_from gT u r = some (ys, v2) ∧ walk_ref rng m gW r = some ys := by
        intro r hpr hr hmr gT gW hgT hgW
        obtain ⟨gT1, rfl⟩ : ∃ g, gT = g + 1 := ⟨gT - 1, by omega⟩
        obtain ⟨gW1, rfl⟩ : ∃ g, gW = g + 1 := ⟨gW - 1, by omega⟩
        have hx : u.base[r]? = some (rng[r]) := by
          subst hub; exact List.getElem?_eq_getElem hr
        have hz1 : (satisfy_forward u (r + 1)).1.zero_ = false := by
          apply satisfy_forward_zero_clear_of u (r + 1) huz
          intro hne hm1
          rw [hub] at hne
          rw [hup, hub] at hm1 ⊢
          exact hnz (r + 1) (by omega) hm1
        obtain ⟨ys, v2, h1, h2⟩ := ih (r + 1) gT1 gW1 u (satisfy_forward u (r + 1)).1
          hub hup huz (by rw [satisfy_forward_base, hub]) (by rw [satisfy_forward_pred, hup])
          hz1 hr (by omega) (by omega) (by omega)
        rw [traverse_from_succ gT1 u r _ hx, h1, walk_ref_nomatch rng m gW1 r hr hmr, h2]
        exact ⟨rng[r] :: ys, v2, rfl, rfl⟩
      have hne : p ≠ v.base.length := by rw [hvb]; exact Nat.ne_of_lt hlt
      by_cases hm : (m () p rng.length).1.1 = true
      · have hcq := hc () p hlt hm
        have hqp := hnz p hlt hm
        have hm1 : (v.pred v.st p v.base.length).1.1 = true := by
          rw [hvp, hvb]; exact hm
        have hsf : (satisfy_forward v p).2 = (m () p rng.length).1.2 := by
          have := satisfy_forward_of_match v p hvz hne hm1
          rw [hvp, hvb] at this; exact this
        obtain ⟨fW1, rfl⟩ : ∃ g, fW = g + 1 := ⟨fW - 1, by omega⟩
        rw [hsf, walk_ref_match rng m fW1 p (Nat.ne_of_lt hlt) hm]
        rcases Nat.eq_or_lt_of_le hcq.2 with hqn | hqlt
        · rw [hqn, ht_end, walk_ref_end]
          exact ⟨[], u, rfl, rfl⟩
        · rcases hmax p hlt hm with hqn | hqm
          · exact absurd hqn (Nat.ne_of_lt hqlt)
          · exact emit _ hcq.1 hqlt hqm fT fW1 (by omega) (by omega)
      · have hm0 : (m () p rng.length).1.1 = false := by simpa using hm
        have hm1 : (v.pred v.st p v.base.length).1.1 = false := by
          rw [hvp, hvb]; exact hm0
        rw [satisfy_forward_of_no_match v p hvz hm1]
        exact emit p (Nat.le_refl p) hlt hm0 fT fW hfT hfW

end walk_traversal

end ranges

namespace ranges

/-! ### The reference for the first surviving element -/

section first_survivor

variable {σ : Type}

theorem skip_runs_end (m : Matcher σ) (n fuel : Nat) (s : σ) :
    skip_runs m n fuel s n = some (n, s) := by
  unfold skip_runs
  simp

theorem skip_runs_stop (m : Matcher σ) (n f : Nat) (s : σ) (p : Nat) (hp : p ≠ n)
    (hm : pos_match m n s p = false) :
    skip_runs m n (f + 1) s p = some (p, (m s p n).2) := by
  rw [skip_runs]
  simp only [hp, if_false, hm, Bool.false_eq_true]

theorem skip_runs_step (m : Matcher σ) (n f : Nat) (s : σ) (p : Nat) (hp : p ≠ n)
    (hm : pos_match m n s p = true) :
    skip_runs m n (f + 1) s p = skip_runs m n f (m s p n).2 (m s p n).1.2 := by
  rw [skip_runs]
  simp only [hp, if_false, hm, if_true]

theorem pos_match_true (m : Matcher σ) (n : Nat) (s : σ) (p : Nat)
    (h : pos_match m n s p = true) : (m s p n).1.1 = true ∧ p < (m s p n).1.2 := by
  simpa [pos_match] using h

theorem skip_runs_ge (m : Matcher σ) (n : Nat) (hc : match_contract m n) (fuel : Nat) :
    ∀ (s : σ) (p : Nat), p ≤ n → n - p ≤ fuel →
      ∃ q s1, skip_runs m n fuel s p = some (q, s1) ∧ p ≤ q ∧ q ≤ n := by
  induction fuel with
  | zero =>
    intro s p hp hf
    have : p = n := by omega
    rw [this, skip_runs_end]
    exact ⟨n, s, rfl, Nat.le_refl _, Nat.le_refl _⟩
  | succ f ih =>
    intro s p hp hf
    rcases Nat.eq_or_lt_of_le hp with heq | hlt
    · rw [heq, skip_runs_end]
      exact ⟨n, s, rfl, Nat.le_refl _, Nat.le_refl _⟩
    · cases hm : pos_match m n s p with
      | false =>
        rw [skip_runs_stop m n f s p (Nat.ne_of_lt hlt) hm]
        exact ⟨p, _, rfl, Nat.le_refl _, hp⟩
      | true =>
        have h1 := pos_match_true m n s p hm
        have h2 := hc s p hlt h1.1
        obtain ⟨q, s1, h3, h4, h5⟩ := ih (m s p n).2 (m s p n).1.2 h2.2 (by omega)
        rw [skip_runs_step m n f s p (Nat.ne_of_lt hlt) hm, h3]
        exact ⟨q, s1, rfl, by omega, h5⟩

/-- From `p`, the reference stops at the position the first matcher invocation
leads to exactly when the run reported at `p` is not chained. -/
theorem first_survivor_iff (m : Matcher σ) (n : Nat) (hc : match_contract m n) (fuel : Nat)
    (s : σ) (p : Nat) (hp : p ≤ n) (hf : n - p ≤ fuel) :
    first_survivor m n fuel s p
        = some (if p = n then p else if (m s p n).1.1 then (m s p n).1.2 else p) ↔
      run_chained m n s p = false := by
  rcases Nat.eq_or_lt_of_le hp with heq | hlt
  · simp [first_survivor, run_chained, heq, skip_runs_end]
  · have hne : p ≠ n := Nat.ne_of_lt hlt
    obtain ⟨f, rfl⟩ : ∃ f, fuel = f + 1 := ⟨fuel - 1, by omega⟩
    cases hm : pos_match m n s p with
    | false =>
      have hval : (if (m s p n).1.1 then (m s p n).1.2 else p) = p := by
        by_cases h1 : (m s p n).1.1 = true
        · have h2 := hc s p hlt h1
          have h3 : ¬ p < (m s p n).1.2 := by
            intro h; simp [pos_match, h1, h] at hm
          simp only [h1, if_true]; omega
        · simp [h1]
      simp [first_survivor, run_chained, hne, hm, skip_runs_stop m n f s p hne hm, hval]
    | true =>
      have h1 := pos_match_true m n s p hm
      have h2 := hc s p hlt h1.1
      simp only [first_survivor, skip_runs_step m n f s p hne hm, hne, if_false, h1.1, if_true,
        run_chained]
      rcases Nat.eq_or_lt_of_le h2.2 with hqn | hqlt
      · simp [hqn, skip_runs_end]
      · have hqne : (m s p n).1.2 ≠ n := Nat.ne_of_lt hqlt
        obtain ⟨g, rfl⟩ : ∃ g, f = g + 1 := ⟨f - 1, by omega⟩
        cases hm2 : pos_match m n (m s p n).2 (m s p n).1.2 with
        | false =>
          simp [skip_runs_stop m n g _ _ hqne hm2, hm, hne, hqne]
        | true =>
          have h3 := pos_match_true m n _ _ hm2
          have h4 := hc _ _ hqlt h3.1
          obtain ⟨q, s1, h5, h6, _⟩ := skip_runs_ge m n hc g _ _ h4.2 (by omega)
          rw [skip_runs_step m n g _ _ hqne hm2, h5]
          simp only [Option.map_some', Option.some.injEq, hm, hne, hqne, ne_eq,
            not_false_eq_true, decide_True, Bool.and_self, Bool.true_eq_false, iff_false]
          omega

end first_survivor

namespace remove_when_view

variable {α σ : Type}

/-! ### The exact result of `satisfy_forward` with `zero_` clear -/

theorem satisfy_forward_clear_snd (v : remove_when_view α σ) (it : Nat) (hz : v.zero_ = false) :
    (satisfy_forward v it).2 =
      if it = v.base.length then it
      else if (v.pred v.st it v.base.length).1.1 then (v.pred v.st it v.base.length).1.2
      else it := by
  simp only [satisfy_forward, base_end, hz, Bool.false_eq_true, if_false, ne_eq, ite_not]
  split_ifs <;> rfl

theorem satisfy_forward_clear_trace (v : remove_when_view α σ) (it : Nat)
    (hz : v.zero_ = false) :
    (satisfy_forward v it).1.trace =
      if it = v.base.length then v.trace
      else (it, (v.pred v.st it v.base.length).1.1, (v.pred v.st it v.base.length).1.2)
        :: v.trace := by
  simp only [satisfy_forward, base_end, hz, Bool.false_eq_true, if_false, ne_eq, ite_not]
  split_ifs <;> rfl

end remove_when_view

end ranges

namespace ranges

/-! ### More on the reference and on the example matchers -/

theorem first_survivor_self_iff {σ : Type} (m : Matcher σ) (n : Nat) (hc : match_contract m n)
    (fuel : Nat) (s : σ) (p : Nat) (hp : p ≤ n) (hf : n - p ≤ fuel) :
    first_survivor m n fuel s p = some p ↔
      (decide (p ≠ n) && pos_match m n s p) = false := by
  rcases Nat.eq_or_lt_of_le hp with heq | hlt
  · simp [first_survivor, heq, skip_runs_end]
  · have hne : p ≠ n := Nat.ne_of_lt hlt
    obtain ⟨f, rfl⟩ : ∃ f, fuel = f + 1 := ⟨fuel - 1, by omega⟩
    cases hm : pos_match m n s p with
    | false => simp [first_survivor, skip_runs_stop m n f s p hne hm, hne]
    | true =>
      have h1 := pos_match_true m n s p hm
      have h2 := hc s p hlt h1.1
      obtain ⟨q, s1, h5, h6, _⟩ := skip_runs_ge m n hc f (m s p n).2 (m s p n).1.2 h2.2
        (by omega)
      simp only [first_survivor, skip_runs_step m n f s p hne hm, h5, Option.map_some',
        Option.some.injEq, hne, ne_eq, not_false_eq_true, decide_True, Bool.and_self,
        Bool.true_eq_false, iff_false]
      omega

theorem match_run_contract {α : Type} [DecidableEq α] (rng : List α) :
    match_contract (match_run rng) rng.length := by
  intro s p hp h
  refine ⟨Nat.le_of_lt (match_run_progress rng s p _ h), ?_⟩
  unfold match_run at h ⊢
  rw [List.getElem?_eq_getElem hp] at h ⊢
  cases h2 : rng[p + 1]? with
  | none => rw [h2] at h; simp at h
  | some y =>
    rw [h2] at h
    simp only at h ⊢
    by_cases hxy : rng[p] = y
    · simp only [hxy, if_true]
      have h3 := List.Sublist.length_le
        (List.takeWhile_sublist (l := rng.drop p) (fun c => decide (c = y)))
      rw [List.length_drop] at h3
      omega
    · simp [hxy] at h

theorem match_zero_then_one_contract (n : Nat) : match_contract match_zero_then_one n := by
  intro s p hp h
  simp only [match_zero_then_one]
  split_ifs <;> simp <;> omega

end ranges

namespace ranges

/-! ### Liftings of an element predicate -/

section lifting

open remove_when_view

variable {α : Type}

theorem takeWhile_prefix_any (P : α → Bool) : ∀ (l : List α) (j : Nat),
    j < (l.takeWhile P).length → l[j]?.any P = true
  | [], j, h => by simp at h
  | x :: t, j, h => by
    rw [List.takeWhile_cons] at h
    by_cases hx : P x = true
    · simp only [hx, if_true, List.length_cons] at h
      cases j with
      | zero => simpa [Option.any] using hx
      | succ j =>
        rw [List.getElem?_cons_succ]
        exact takeWhile_prefix_any P t j (by omega)
    · simp [hx] at h

theorem takeWhile_end_any (P : α → Bool) : ∀ (l : List α),
    l[(l.takeWhile P).length]?.any P = false
  | [] => by simp [Option.any]
  | x :: t => by
    rw [List.takeWhile_cons]
    by_cases hx : P x = true
    · simp only [hx, if_true, List.length_cons, List.getElem?_cons_succ]
      exact takeWhile_end_any P t
    · simp only [hx, if_false, Bool.false_eq_true, List.length_nil, List.getElem?_cons_zero]
      simpa [Option.any] using hx

theorem predicate_run_lifts (P : α → Bool) (rng : List α) :
    lifts_predicate P rng (predicate_run P rng) := by
  intro p hp
  have hd : rng.drop p = rng[p] :: rng.drop (p + 1) := List.drop_eq_getElem_cons hp
  have hlen : ((rng.drop p).takeWhile P).length ≤ rng.length - p := by
    have := List.Sublist.length_le (List.takeWhile_sublist (l := rng.drop p) P)
    rw [List.length_drop] at this
    exact this
  constructor
  · simp only [predicate_run, List.getElem?_eq_getElem hp, Option.any]
    rw [hd, List.takeWhile_cons]
    by_cases hx : P rng[p] = true
    · simp [hx]
    · simp [hx]
  · intro hm
    simp only [predicate_run, decide_eq_true_eq] at hm ⊢
    refine ⟨by omega, by omega, ?_, ?_⟩
    · intro i hi hpi
      have h1 := takeWhile_prefix_any P (rng.drop p) (i - p) (by omega)
      rw [List.getElem?_drop] at h1
      have : p + (i - p) = i := by omega
      rw [this] at h1
      exact h1
    · have h1 := takeWhile_end_any P (rng.drop p)
      rw [List.getElem?_drop] at h1
      exact h1

theorem predicate_pred_lifts (P : α → Bool) (rng : List α)
    (h : ∀ i, i < rng.length - 1 → (rng[i]?.any P && rng[i + 1]?.any P) = false) :
    lifts_predicate P rng (detail.predicate_pred P rng) := by
  intro p hp
  have hx : rng[p]? = some rng[p] := List.getElem?_eq_getElem hp
  constructor
  · simp only [detail.predicate_pred, hx, Option.any]
    by_cases hP : P rng[p] = true
    · simp [hP]
    · simp [hP]
  · intro hm
    have hP : P rng[p] = true := by
      simp only [detail.predicate_pred, hx] at hm
      by_cases hP : P rng[p] = true
      · exact hP
      · simp [hP] at hm
    simp only [detail.predicate_pred, hx, hP, if_true]
    refine ⟨Nat.lt_succ_self p, hp, ?_, ?_⟩
    · intro i hi hpi
      have : i = p := by omega
      rw [this, hx]
      simpa [Option.any] using hP
    · rcases Nat.lt_or_ge (p + 1) rng.length with h1 | h1
      · have h2 := h p (by omega)
        rw [hx] at h2
        simpa [Option.any, hP] using h2
      · rw [List.getElem?_eq_none h1]
        rfl

theorem lifts_predicate_contract (P : α → Bool) (rng : List α) (m : Matcher Unit)
    (hl : lifts_predicate P rng m) : match_contract m rng.length := by
  intro s p hp h
  cases s
  have := (hl p hp).2 h
  exact ⟨Nat.le_of_lt this.1, this.2.1⟩

theorem lifts_predicate_no_zero_length (P : α → Bool) (rng : List α) (m : Matcher Unit)
    (hl : lifts_predicate P rng m) : no_zero_length m rng.length := by
  intro p hp h
  have := (hl p hp).2 h
  omega

theorem lifts_predicate_maximal (P : α → Bool) (rng : List α) (m : Matcher Unit)
    (hl : lifts_predicate P rng m) : match_maximal m rng.length := by
  intro p hp h
  have h1 := (hl p hp).2 h
  rcases Nat.eq_or_lt_of_le h1.2.1 with heq | hlt
  · exact Or.inl heq
  · right
    rw [(hl _ hlt).1]
    exact h1.2.2.2

theorem filter_drop_skip (P : α → Bool) (rng : List α) : ∀ (k p : Nat),
    p + k ≤ rng.length → (∀ i, i < p + k → p ≤ i → rng[i]?.any P = true) →
    (rng.drop p).filter (fun x => !P x) = (rng.drop (p + k)).filter (fun x => !P x)
  | 0, p, _, _ => rfl
  | k + 1, p, hle, h => by
    have hp : p < rng.length := by omega
    have hP : P rng[p] = true := by
      have := h p (by omega) (Nat.le_refl p)
      rw [List.getElem?_eq_getElem hp] at this
      simpa [Option.any] using this
    rw [List.drop_eq_getElem_cons hp, List.filter_cons_of_neg (by simp [hP])]
    have := filter_drop_skip P rng k (p + 1) (by omega) (fun i hi hpi => h i (by omega) (by omega))
    rw [this]
    congr 2
    omega

theorem walk_ref_filter (P : α → Bool) (rng : List α) (m : Matcher Unit)
    (hl : lifts_predicate P rng m) (fuel : Nat) :
    ∀ p, p ≤ rng.length → rng.length - p ≤ fuel →
      walk_ref rng m fuel p = some ((rng.drop p).filter (fun x => !P x)) := by
  induction fuel with
  | zero =>
    intro p hp hf
    have : p = rng.length := by omega
    rw [this, walk_ref_end, List.drop_length]
    rfl
  | succ f ih =>
    intro p hp hf
    rcases Nat.eq_or_lt_of_le hp with heq | hlt
    · rw [heq, walk_ref_end, List.drop_length]
      rfl
    · by_cases hm : (m () p rng.length).1.1 = true
      · have h1 := (hl p hlt).2 hm
        rw [walk_ref_match rng m f p (Nat.ne_of_lt hlt) hm, ih _ h1.2.1 (by omega)]
        have h2 := filter_drop_skip P rng ((m () p rng.length).1.2 - p) p (by omega)
          (fun i hi hpi => h1.2.2.1 i (by omega) hpi)
        have h3 : p + ((m () p rng.length).1.2 - p) = (m () p rng.length).1.2 := by omega
        rw [h3] at h2
        rw [h2]
      · have hm0 : (m () p rng.length).1.1 = false := by simpa using hm
        have hP : P rng[p] = false := by
          have := (hl p hlt).1
          rw [hm0, List.getElem?_eq_getElem hlt] at this
          simpa [Option.any] using this.symm
        rw [walk_ref_nomatch rng m f p hlt hm0, ih (p + 1) hlt (by omega),
          List.drop_eq_getElem_cons hlt, List.filter_cons_of_pos (by simp [hP])]

theorem traverse_elems_walk_ref (rng : List α) (m : Matcher Unit) (z : Bool) (fuel : Nat)
    (hc : match_contract m rng.length) (hnz : no_zero_length m rng.length)
    (hmax : match_maximal m rng.length) (hfuel : rng.length ≤ fuel) :
    ∃ ys, traverse_elems fuel (mk_view rng m () z) = some ys ∧
      walk_ref rng m fuel 0 = some ys := by
  have hz1 : (satisfy_forward { mk_view rng m () z with zero_ := false } 0).1.zero_ = false := by
    apply satisfy_forward_zero_clear_of _ 0 rfl
    intro hne hm1
    exact hnz 0 (Nat.pos_of_ne_zero (fun e => hne e.symm)) hm1
  obtain ⟨ys, v2, h1, h2⟩ := traverse_from_walk_ref rng m hc hnz hmax rng.length 0 fuel fuel
    { mk_view rng m () z with zero_ := false }
    { (satisfy_forward { mk_view rng m () z with zero_ := false } 0).1 with
      begin_ := some (satisfy_forward { mk_view rng m () z with zero_ := false } 0).2 }
    rfl rfl rfl (by simp only [satisfy_forward_base]; rfl)
    (by simp only [satisfy_forward_pred]; rfl) hz1 (Nat.zero_le _) (by omega) (by omega)
    (by omega)
  refine ⟨ys, ?_, h2⟩
  simp only [traverse_elems, traverse_view, view_begin, begin_adaptor, adaptor_begin, cache_begin,
    mk_view, base_begin, Option.map_some']
  simp only [mk_view] at h1
  rw [h1]
  rfl

end lifting

end ranges

namespace ranges

/-! ### The matchers used in the examples satisfy the contract -/

theorem match_one_contract (n : Nat) : match_contract match_one n := by
  intro s p hp _
  simp only [match_one]
  omega

theorem match_zero_once_contract (n : Nat) : match_contract match_zero_once n := by
  intro s p hp h
  cases s
  · simp only [match_zero_once, Bool.false_eq_true, if_false]
    omega
  · simp [match_zero_once] at h

end ranges

open ranges ranges.remove_when_view

/-! ## Claims -/

/-- C1 as stated fails: over the source `[2, 4]` with the predicate "is even",
lifted to a match of the single current element, the traversal of
`view::remove_when` yields `[4]`, although no element of the source fails the
predicate (`filter` yields `[]`); the example `[1,2,3,4,5]` yields `[1,3,5]`. -/
theorem C1_counterexample :
    (∀ z, traverse_elems 2 (view.remove_when [2, 4] is_even z) = some [4]) ∧
    [2, 4].filter (fun x => !is_even x) = [] ∧
    (∀ z, traverse_elems 5 (view.remove_when [1, 2, 3, 4, 5] is_even z) = some [1, 3, 5]) := by
  decide

/-- C1 (amended): for every finite source, every element predicate and every
lifting of the predicate into a matcher that matches exactly where the element
satisfies the predicate and whose match consumes only elements that satisfy it
and ends at the sentinel or at an element that does not, the traversal of the
view built from the source and the lifting returns with any fuel of at least
the length of the source, and yields exactly the elements that do not satisfy
the predicate, in source order. -/
theorem C1_remove_when_filter {α : Type} (rng : List α) (P : α → Bool) (m : Matcher Unit)
    (z : Bool) (fuel : Nat) (hl : lifts_predicate P rng m) (hfuel : rng.length ≤ fuel) :
    traverse_elems fuel (mk_view rng m () z) = some (rng.filter (fun x => !P x)) := by
  obtain ⟨ys, h1, h2⟩ := traverse_elems_walk_ref rng m z fuel
    (lifts_predicate_contract P rng m hl) (lifts_predicate_no_zero_length P rng m hl)
    (lifts_predicate_maximal P rng m hl) hfuel
  rw [walk_ref_filter P rng m hl fuel 0 (Nat.zero_le _) (by omega)] at h2
  rw [h1, ← h2]
  rfl

/-- C1 (amended) at two concrete views: the single-element lifting over
`[1, 2, 3, 4, 5]`, where no two adjacent elements are even, yields `[1, 3, 5]`;
the run-consuming lifting over `[2, 4, 5]` yields `[5]`. -/
theorem C1_remove_when_filter_witness :
    traverse_elems 5 (view.remove_when [1, 2, 3, 4, 5] is_even true) = some [1, 3, 5] ∧
    traverse_elems 3 (mk_view [2, 4, 5] (predicate_run is_even [2, 4, 5]) () true) = some [5] :=
  ⟨C1_remove_when_filter [1, 2, 3, 4, 5] is_even (detail.predicate_pred is_even [1, 2, 3, 4, 5])
      true 5 (predicate_pred_lifts is_even [1, 2, 3, 4, 5] (by decide)) (by decide),
    C1_remove_when_filter [2, 4, 5] is_even (predicate_run is_even [2, 4, 5]) true 3
      (predicate_run_lifts is_even [2, 4, 5]) (by decide)⟩

/-- C2 as stated fails: over `[1, 1, 2, 2]` the traversal with the run matcher
yields `[2, 2]`, although both elements `2` belong to a run of two equal
elements (the reference yields `[]`); the example `[1, 1, 1, 2, 3]` yields
`[2, 3]`. -/
theorem C2_counterexample :
    (∀ z, traverse_elems 4 (view.remove_when_fun [1, 1, 2, 2] (match_run [1, 1, 2, 2]) () z)
      = some [2, 2]) ∧
    outside_runs [1, 1, 2, 2] = [] ∧
    (∀ z, traverse_elems 5
      (view.remove_when_fun [1, 1, 1, 2, 3] (match_run [1, 1, 1, 2, 3]) () z) = some [2, 3]) := by
  decide

/-- C2 (amended): for every finite source in which no run of two or more
adjacent equal elements is immediately followed by another such run, the
traversal of the view built with the run matcher returns with any fuel of at
least the length of the source, and yields exactly the elements that belong to
no run of two or more adjacent equal elements, in source order. -/
theorem C2_run_matcher {α : Type} [DecidableEq α] (rng : List α) (z : Bool) (fuel : Nat)
    (hnc : no_chained_runs rng = true) (hfuel : rng.length ≤ fuel) :
    traverse_elems fuel (view.remove_when_fun rng (match_run rng) () z)
      = some (outside_runs rng) := by
  have hprog : ∀ s p, (match_run rng s p rng.length).1.1 = true →
      p < (match_run rng s p rng.length).1.2 :=
    fun s p h => match_run_progress rng s p _ h
  obtain ⟨v2, h2⟩ := traverse_from_match_run rng fuel [] rng
    { mk_view rng (match_run rng) () z with zero_ := false }
    { (satisfy_forward { mk_view rng (match_run rng) () z with zero_ := false } 0).1 with
      begin_ := some (satisfy_forward { mk_view rng (match_run rng) () z with zero_ := false } 0).2 }
    rfl rfl rfl rfl
    (by simp only [satisfy_forward_base]; rfl) (by simp only [satisfy_forward_pred]; rfl)
    (satisfy_forward_zero_clear _ 0 rfl hprog) hnc hfuel
  simp only [traverse_elems, traverse_view, view_begin, begin_adaptor, adaptor_begin, cache_begin,
    view.remove_when_fun, mk_view, base_begin, Option.map_some']
  simp only [List.length_nil, mk_view] at h2
  rw [h2]
  rfl

/-- C2 (amended) at the source `[1, 1, 1, 2, 3]`, which has no two adjacent
runs: the traversal yields `[2, 3]`. -/
theorem C2_run_matcher_witness :
    traverse_elems 5 (view.remove_when_fun [1, 1, 1, 2, 3] (match_run [1, 1, 1, 2, 3]) () true)
      = some (outside_runs [1, 1, 1, 2, 3]) ∧ outside_runs [1, 1, 1, 2, 3] = [2, 3] :=
  ⟨C2_run_matcher [1, 1, 1, 2, 3] true 5 (by decide) (by decide), by decide⟩

/-- C3: if the matcher reports a zero-length match at the start of the source
(`hfirst`; it is not invoked at all when the source is empty) and no match on
every later invocation (`hlater`: once fired, it reports no match at any later
position and stays fired), then the traversal
of a newly built view returns with any fuel of at least the length of the
source, and yields exactly the source. -/
theorem C3_zero_length_once {α σ : Type} (rng : List α) (m : Matcher σ) (s : σ) (z : Bool)
    (Fired : σ → Prop)
    (hfirst : rng ≠ [] → (m s 0 rng.length).1 = (true, 0) ∧ Fired (m s 0 rng.length).2)
    (hlater : ∀ s1 p, Fired s1 → 0 < p →
      (m s1 p rng.length).1.1 = false ∧ Fired (m s1 p rng.length).2)
    (fuel : Nat) (hfuel : rng.length ≤ fuel) :
    traverse_elems fuel (mk_view rng m s z) = some rng := by
  cases rng with
  | nil =>
    simp only [traverse_elems, traverse_view, view_begin, begin_adaptor, adaptor_begin,
      cache_begin, mk_view, base_begin, satisfy_forward, base_end, List.length_nil,
      Option.map_some']
    simp only [Bool.false_eq_true, if_false, ne_eq, not_true_eq_false]
    unfold traverse_from
    simp [view_end, end_adaptor]
  | cons x xs =>
    obtain ⟨f, rfl⟩ : ∃ f, fuel = f + 1 := ⟨fuel - 1, by simp at hfuel; omega⟩
    have hfirst := hfirst (List.cons_ne_nil x xs)
    have h1 : (m s 0 (xs.length + 1)).1.1 = true := by
      have := hfirst.1; simp only [List.length_cons] at this; rw [this]
    have h2 : (m s 0 (xs.length + 1)).1.2 = 0 := by
      have := hfirst.1; simp only [List.length_cons] at this; rw [this]
    simp only [traverse_elems, traverse_view, view_begin, begin_adaptor, adaptor_begin,
      cache_begin, mk_view, base_begin, satisfy_forward, base_end, List.length_cons,
      Option.map_some']
    simp only [Bool.false_eq_true, if_false, ne_eq, h1, h2, if_true]
    simp only [show ¬ (0 = xs.length + 1) by omega, not_false_eq_true, if_true, decide_True]
    rw [traverse_from_succ f _ 0 x (by simp)]
    simp only [satisfy_forward, if_true]
    obtain ⟨v2, hv2⟩ := traverse_from_no_match (x :: xs) m Fired hlater f
      { base := x :: xs, pred := m, st := (m s 0 (xs.length + 1)).2, zero_ := false,
        begin_ := some 0, trace := [(0, true, 0)] }
      1 rfl rfl (by have := hfirst.2; simpa using this) rfl Nat.one_pos (by simp)
      (by simp at hfuel ⊢; omega)
    simp only [zero_add]
    rw [hv2]
    simp

/-- C3 at a concrete view: the matcher that reports a zero-length match on its
first invocation only, over `[1, 2, 3]`, yields `[1, 2, 3]`. -/
theorem C3_zero_length_once_witness :
    traverse_elems 3 (mk_view [1, 2, 3] match_zero_once false true) = some [1, 2, 3] :=
  C3_zero_length_once [1, 2, 3] match_zero_once false true (fun s => s = true)
    (fun _ => ⟨rfl, rfl⟩) (fun s1 p h _ => by subst h; exact ⟨rfl, rfl⟩) 3 (Nat.le_refl 3)

/-- C4: on every view, `begin()` succeeds, and a second `begin()` right after
it returns the same position and the same view: the matcher state, the ghost
trace of matcher invocations, `zero_` and `begin_` are all unchanged, so the
matcher is not invoked again. -/
theorem C4_begin_twice {α σ : Type} (v : remove_when_view α σ) :
    ∃ v1 p, view_begin v = some (v1, p) ∧ view_begin v1 = some (v1, p) ∧
      v1.begin_ = some p := by
  have h := cache_begin_isSome v
  obtain ⟨b, hb⟩ := Option.isSome_iff_exists.mp h
  refine ⟨cache_begin v, b, ?_, ?_, hb⟩
  · simp [view_begin, begin_adaptor, adaptor_begin, hb]
  · simp [view_begin, begin_adaptor, adaptor_begin, cache_begin_of_some _ b hb, hb]

/-- C5 as stated fails: the one-element matcher satisfies the Match Function
Contract on `[7, 8]`, yet `begin()` returns position 1, which is not the
sentinel and at which the matcher reports a match of positive length; the
first surviving position is the sentinel, both elements being matched. -/
theorem C5_counterexample :
    match_contract match_one [7, 8].length ∧
    (∃ v1 b, view_begin (mk_view [7, 8] match_one () false) = some (v1, b) ∧
      b = 1 ∧ at_survivor v1 b = false) ∧
    first_survivor match_one 2 2 () 0 = some 2 := by
  exact ⟨match_one_contract 2, ⟨_, _, rfl, rfl, rfl⟩, by decide⟩

/-- C5 (amended): for a matcher that satisfies the Match Function Contract,
`begin()` of a newly built view invokes the matcher at most once, at the begin
of the source, and returns the begin of the source when the source is empty or
no match is reported there, and the reported new position otherwise; this is
the first surviving element (where skipping every matched run of positive
length from the begin of the source stops) exactly when the run reported at the
begin of the source is not chained. -/
theorem C5_begin_first_run {α σ : Type} (rng : List α) (m : Matcher σ) (s : σ) (z : Bool)
    (fuel : Nat) (hc : match_contract m rng.length) (hfuel : rng.length ≤ fuel) :
    ∃ v1 b, view_begin (mk_view rng m s z) = some (v1, b) ∧
      b = (if 0 = rng.length then 0
        else if (m s 0 rng.length).1.1 then (m s 0 rng.length).1.2 else 0) ∧
      v1.trace = (if 0 = rng.length then []
        else [(0, (m s 0 rng.length).1.1, (m s 0 rng.length).1.2)]) ∧
      (first_survivor m rng.length fuel s 0 = some b ↔ run_chained m rng.length s 0 = false) := by
  have hb := satisfy_forward_clear_snd { mk_view rng m s z with zero_ := false } 0 rfl
  have ht := satisfy_forward_clear_trace { mk_view rng m s z with zero_ := false } 0 rfl
  have hiff := first_survivor_iff m rng.length hc fuel s 0 (Nat.zero_le _) (by omega)
  refine ⟨{ (satisfy_forward { mk_view rng m s z with zero_ := false } 0).1 with
      begin_ := some (satisfy_forward { mk_view rng m s z with zero_ := false } 0).2 },
    (satisfy_forward { mk_view rng m s z with zero_ := false } 0).2, ?_, hb, ht, ?_⟩
  · simp only [view_begin, begin_adaptor, adaptor_begin, cache_begin, mk_view, base_begin,
      Option.map_some']
  · rw [hb]
    exact hiff

/-- C5 (amended) at the source `[1, 1, 1, 2, 3]` with the run matcher: `begin()`
skips the run of three and returns position 3, which is the first surviving
element. -/
theorem C5_begin_first_run_witness :
    ∃ v1 b, view_begin (mk_view [1, 1, 1, 2, 3] (match_run [1, 1, 1, 2, 3]) () true)
        = some (v1, b) ∧ b = 3 ∧ v1.trace = [(0, true, 3)] ∧
      first_survivor (match_run [1, 1, 1, 2, 3]) 5 5 () 0 = some b := by
  obtain ⟨v1, b, h1, h2, h3, h4⟩ := C5_begin_first_run [1, 1, 1, 2, 3]
    (match_run [1, 1, 1, 2, 3]) () true 5 (match_run_contract [1, 1, 1, 2, 3]) (by decide)
  exact ⟨v1, b, h1, h2.trans (by decide), h3.trans (by decide), h4.mpr (by decide)⟩

/-- C6 as stated fails, in two ways.  Over `[7, 8, 9, 10]` with the one-element
matcher, `begin()` returns position 1 and `next` from there leaves the iterator
at position 3, where the matcher reports a match of positive length (a chained
run).  Over `[10, 20, 30]` with the matcher that reports a zero-length match at
position 0 and a one-element match at position 1, `begin()` returns position 0
with `zero_` set and `next` from there leaves the iterator at position 1
without consulting the matcher, which reports a match of positive length
there.  Both matchers satisfy the Match Function Contract. -/
theorem C6_counterexample :
    match_contract match_one [7, 8, 9, 10].length ∧
    (∃ v b v1 it1, view_begin (mk_view [7, 8, 9, 10] match_one () false) = some (v, b) ∧
      b ≠ base_end v ∧ adaptor_next v b = some (v1, it1) ∧
      it1 = 3 ∧ at_survivor v1 it1 = false) ∧
    match_contract match_zero_then_one [10, 20, 30].length ∧
    (∃ v b v1 it1, view_begin (mk_view [10, 20, 30] match_zero_then_one () false) = some (v, b) ∧
      b ≠ base_end v ∧ v.zero_ = true ∧ adaptor_next v b = some (v1, it1) ∧
      it1 = 1 ∧ v1.trace = v.trace ∧ at_survivor v1 it1 = false) := by
  exact ⟨match_one_contract 4, ⟨_, _, _, _, rfl, by decide, rfl, rfl, rfl⟩,
    match_zero_then_one_contract 3, ⟨_, _, _, _, rfl, by decide, rfl, rfl, rfl, rfl, rfl⟩⟩

/-- C6 (amended): for a matcher that satisfies the Match Function Contract and
a position `it` before the sentinel, `next(it)` succeeds and leaves `it` not
past the sentinel.  If `zero_` was set, `it` is at the underlying successor and
the matcher was not invoked; this is the first surviving element from the
successor on exactly when the successor is the sentinel or the matcher reports
no match of positive length there.  If `zero_` was clear, the matcher was
invoked at most once, at the successor, and `it` is at the successor when that
is the sentinel or no match is reported there, and at the reported new position
otherwise; this is the first surviving element from the successor on exactly
when the run reported at the successor is not chained. -/
theorem C6_next_first_run {α σ : Type} (v : remove_when_view α σ) (it : Nat) (fuel : Nat)
    (hc : match_contract v.pred v.base.length) (hit : it < v.base.length)
    (hfuel : v.base.length ≤ fuel) :
    ∃ v1 it1, adaptor_next v it = some (v1, it1) ∧ it1 ≤ v.base.length ∧
      (v.zero_ = true →
        it1 = it + 1 ∧ v1.trace = v.trace ∧
        (first_survivor v.pred v.base.length fuel v.st (it + 1) = some it1 ↔
          (decide (it + 1 ≠ v.base.length) &&
            pos_match v.pred v.base.length v.st (it + 1)) = false)) ∧
      (v.zero_ = false →
        it1 = (if it + 1 = v.base.length then it + 1
          else if (v.pred v.st (it + 1) v.base.length).1.1
            then (v.pred v.st (it + 1) v.base.length).1.2 else it + 1) ∧
        v1.trace = (if it + 1 = v.base.length then v.trace
          else (it + 1, (v.pred v.st (it + 1) v.base.length).1.1,
            (v.pred v.st (it + 1) v.base.length).1.2) :: v.trace) ∧
        (first_survivor v.pred v.base.length fuel v.st (it + 1) = some it1 ↔
          run_chained v.pred v.base.length v.st (it + 1) = false)) := by
  refine ⟨(satisfy_forward v (it + 1)).1, (satisfy_forward v (it + 1)).2, ?_,
    (satisfy_forward_bounds v (it + 1) hc hit).2, ?_, ?_⟩
  · simp [adaptor_next, base_end, Nat.ne_of_lt hit]
  · intro hz
    rw [satisfy_forward_zero_set v (it + 1) hz]
    exact ⟨rfl, rfl, first_survivor_self_iff v.pred v.base.length hc fuel v.st (it + 1) hit
      (by omega)⟩
  · intro hz
    have hb := satisfy_forward_clear_snd v (it + 1) hz
    refine ⟨hb, satisfy_forward_clear_trace v (it + 1) hz, ?_⟩
    rw [hb]
    exact first_survivor_iff v.pred v.base.length hc fuel v.st (it + 1) hit (by omega)

/-- C6 (amended) at two concrete views.  Over `[1, 2, 2, 3]` with the run
matcher, `zero_` is clear after `begin()` and `next` from position 0 skips the
run of two and leaves the iterator at position 3, the first surviving element
from position 1 on.  Over `[10, 20, 30]` with the matcher that reports a
zero-length match at position 0, `zero_` is set after `begin()` and `next` from
position 0 leaves the iterator at position 1, while the first surviving element
from position 1 on is position 2. -/
theorem C6_next_first_run_witness :
    (∃ v1 it1, adaptor_next (cache_begin (mk_view [1, 2, 2, 3] (match_run [1, 2, 2, 3]) () true)) 0
        = some (v1, it1) ∧ it1 = 3 ∧
      first_survivor (match_run [1, 2, 2, 3]) 4 4 () 1 = some it1) ∧
    (∃ v1 it1, adaptor_next (cache_begin (mk_view [10, 20, 30] match_zero_then_one () true)) 0
        = some (v1, it1) ∧ it1 = 1 ∧
      first_survivor match_zero_then_one 3 3 () 1 = some 2 ∧
      ¬ first_survivor match_zero_then_one 3 3 () 1 = some it1) := by
  constructor
  · obtain ⟨v1, it1, h1, _, _, h3⟩ := C6_next_first_run
      (cache_begin (mk_view [1, 2, 2, 3] (match_run [1, 2, 2, 3]) () true)) 0 4
      (by rw [cache_begin_pred, cache_begin_base]; exact match_run_contract [1, 2, 2, 3])
      (by decide) (by decide)
    obtain ⟨e1, _, e3⟩ := h3 rfl
    exact ⟨v1, it1, h1, e1.trans (by decide), e3.mpr (by decide)⟩
  · obtain ⟨v1, it1, h1, _, h2, _⟩ := C6_next_first_run
      (cache_begin (mk_view [10, 20, 30] match_zero_then_one () true)) 0 3
      (by rw [cache_begin_pred, cache_begin_base]; exact match_zero_then_one_contract 3)
      (by decide) (by decide)
    obtain ⟨e1, _, e3⟩ := h2 rfl
    exact ⟨v1, it1, h1, e1, by decide, fun h => absurd (e3.mp h) (by decide)⟩

/-- C7: for a matcher that satisfies the Match Function Contract on a source of
length `n`, zero-length matches allowed, `next(it)` at a position before the
sentinel succeeds and leaves `it` strictly further along and not past the
sentinel; and the traversal of a newly built view returns a result with any
fuel of at least `n`, that is after at most `n` calls of `next`. -/
theorem C7_forward_progress {α σ : Type} (rng : List α) (m : Matcher σ) (s : σ) (z : Bool)
    (hc : match_contract m rng.length) :
    (∀ v : remove_when_view α σ, v.base = rng → v.pred = m → ∀ it, it < rng.length →
      ∃ v1 it1, adaptor_next v it = some (v1, it1) ∧ it < it1 ∧ it1 ≤ rng.length) ∧
    (∀ fuel, rng.length ≤ fuel → ∃ ys v2, traverse_view fuel (mk_view rng m s z) = some (ys, v2)) := by
  constructor
  · intro v hb hp it hit
    subst hb
    subst hp
    have hbd := satisfy_forward_bounds v (it + 1) hc hit
    refine ⟨(satisfy_forward v (it + 1)).1, (satisfy_forward v (it + 1)).2, ?_, ?_, hbd.2⟩
    · simp [adaptor_next, base_end, Nat.ne_of_lt hit]
    · omega
  · intro fuel hf
    have hbd := satisfy_forward_bounds { mk_view rng m s z with zero_ := false } 0 hc
      (Nat.zero_le _)
    have hbase := satisfy_forward_base { mk_view rng m s z with zero_ := false } 0
    have hpred := satisfy_forward_pred { mk_view rng m s z with zero_ := false } 0
    obtain ⟨r, hr⟩ := traverse_from_total fuel
      { (satisfy_forward { mk_view rng m s z with zero_ := false } 0).1 with
        begin_ := some (satisfy_forward { mk_view rng m s z with zero_ := false } 0).2 }
      (satisfy_forward { mk_view rng m s z with zero_ := false } 0).2
      (by simp only [hpred, hbase]; exact hc) (by simp only [hbase]; exact hbd.2)
      (by simp only [hbase]; simp only [mk_view] at hf ⊢; omega)
    refine ⟨r.1, r.2, ?_⟩
    simp only [traverse_view, view_begin, begin_adaptor, adaptor_begin, cache_begin, mk_view,
      base_begin, Option.map_some']
    exact hr

/-- C7 at a concrete view: the matcher that reports a zero-length match once
satisfies the contract on `[1, 2, 3]`, and the traversal returns with fuel 3. -/
theorem C7_forward_progress_witness :
    ∃ ys v2, traverse_view 3 (mk_view [1, 2, 3] match_zero_once false true) = some (ys, v2) :=
  (C7_forward_progress [1, 2, 3] match_zero_once false true
    (match_zero_once_contract 3)).2 3 (Nat.le_refl 3)

/-- C8: for every character buffer `sz` that contains a zero, the view built by
the null-terminated overload of `c_str` can be traversed with any fuel of at
least the length of the buffer, and the traversal yields exactly the elements
before the first zero, in order, without that zero. -/
theorem C8_c_str_null_terminated (sz : List Nat) (fuel : Nat) (hz : 0 ∈ sz)
    (hfuel : sz.length ≤ fuel) :
    (view.c_str sz).traverse_all fuel = some (sz.takeWhile (fun c => decide (c ≠ 0))) := by
  have h := delimit_view.traverse_from_takeWhile (view.c_str sz) fuel 0
    (by simpa [view.c_str, view.delimit] using hz)
    (by simpa [view.c_str, view.delimit] using hfuel)
  simpa [delimit_view.traverse_all, view.c_str, view.delimit] using h

/-- C8 at the buffer `['a', 'b', 'c', 0]`: the traversal yields `['a', 'b', 'c']`. -/
theorem C8_c_str_null_terminated_witness :
    (view.c_str [97, 98, 99, 0]).traverse_all 4 = some [97, 98, 99] :=
  C8_c_str_null_terminated [97, 98, 99, 0] 4 (by decide) (by decide)

/-- C9: the position `end()` returns is the end of the wrapped source, so a
position equals the view's `end()` exactly when it equals the source's end;
`end()` does not change the view; the assertion of `next` fails exactly at the
source's end; and `satisfy_forward`, entered with `zero_` clear, skips the
matcher exactly at the source's end. -/
theorem C9_sentinel_agreement {α σ : Type} (v : remove_when_view α σ) (p : Nat) :
    (view_end v).1 = v ∧
    (p = (view_end v).2 ↔ p = base_end v) ∧
    (adaptor_next v p = none ↔ p = base_end v) ∧
    (v.zero_ = false → ((satisfy_forward v p).1.trace = v.trace ↔ p = base_end v)) := by
  refine ⟨rfl, Iff.rfl, ?_, ?_⟩
  · simp [adaptor_next]
  · intro hz
    simp only [satisfy_forward, hz]
    by_cases hp : p = base_end v
    · simp [hp]
    · simp only [hp, iff_false]
      simp only [Bool.false_eq_true, if_false, ne_eq, hp, not_false_eq_true, if_true]
      split_ifs <;> simp

/-- C9 at a concrete view: over `[7, 8]` the matcher is skipped at position 2
and invoked at position 1. -/
theorem C9_sentinel_agreement_witness :
    (satisfy_forward (mk_view [7, 8] match_one () false) 2).1.trace = [] ∧
    (satisfy_forward (mk_view [7, 8] match_one () false) 1).1.trace ≠ [] :=
  ⟨((C9_sentinel_agreement (mk_view [7, 8] match_one () false) 2).2.2.2 rfl).mpr rfl,
   fun h => absurd (((C9_sentinel_agreement (mk_view [7, 8] match_one () false) 1).2.2.2 rfl).mp h)
     (by decide)⟩

/-- C10: a newly constructed view has an empty `begin_`; the first `begin()`
fills it with the position it returns; and once `begin_` holds a position `b`,
after any sequence of `begin`, `end`, `next` and `satisfy_forward` operations
it still holds `b`, and `begin()` still returns `b` without changing the view. -/
theorem C10_cached_begin_lifecycle {α σ : Type} :
    (∀ (rng : List α) (m : Matcher σ) (s : σ) (z : Bool), (mk_view rng m s z).begin_ = none) ∧
    (∀ v : remove_when_view α σ, v.begin_ = none →
      ∃ v1 b, view_begin v = some (v1, b) ∧ v1.begin_ = some b) ∧
    (∀ (v v2 : remove_when_view α σ) (b : Nat) (ops : List Op), v.begin_ = some b →
      run v ops = some v2 → v2.begin_ = some b ∧ view_begin v2 = some (v2, b)) := by
  refine ⟨fun _ _ _ _ => rfl, ?_, ?_⟩
  · intro v _
    obtain ⟨b, hb⟩ := Option.isSome_iff_exists.mp (cache_begin_isSome v)
    exact ⟨cache_begin v, b, by simp [view_begin, begin_adaptor, adaptor_begin, hb], hb⟩
  · intro v v2 b ops hb hr
    have h2 := run_begin_ ops v v2 b hb hr
    exact ⟨h2, by simp [view_begin, begin_adaptor, adaptor_begin, cache_begin_of_some v2 b h2, h2]⟩

/-- C10 at a concrete view: over `[2, 4, 5]` with the one-element matcher the
first `begin()` caches position 1, and it is still cached after a traversal
step, a direct `satisfy_forward`, another `begin()` and an `end()`. -/
theorem C10_cached_begin_lifecycle_witness :
    ∃ v2 : remove_when_view Nat Unit,
      run (cache_begin (mk_view [2, 4, 5] match_one () true))
        [Op.next 1, Op.satisfy 2, Op.begin, Op.end_] = some v2 ∧
      v2.begin_ = some 1 ∧ view_begin v2 = some (v2, 1) :=
  ⟨_, rfl, C10_cached_begin_lifecycle.2.2 (cache_begin (mk_view [2, 4, 5] match_one () true)) _ 1
    [Op.next 1, Op.satisfy 2, Op.begin, Op.end_] rfl rfl⟩

/-- C11: no operation of the view writes the wrapped source: after any sequence
of `begin`, `end`, `next` and `satisfy_forward` operations, and after a
complete traversal, the source (and the matcher function) of the view is the
same as before. -/
theorem C11_source_not_mutated {α σ : Type} (v : remove_when_view α σ) :
    (∀ ops v2, run v ops = some v2 → v2.base = v.base ∧ v2.pred = v.pred) ∧
    (∀ fuel ys v2, traverse_view fuel v = some (ys, v2) → v2.base = v.base ∧ v2.pred = v.pred) := by
  have hsf : ∀ (w : remove_when_view α σ) (it : Nat), w.base = v.base ∧ w.pred = v.pred →
      (satisfy_forward w it).1.base = v.base ∧ (satisfy_forward w it).1.pred = v.pred := by
    intro w it hw
    rw [satisfy_forward_base, satisfy_forward_pred]; exact hw
  have hcb : ∀ (w : remove_when_view α σ), w.base = v.base ∧ w.pred = v.pred →
      (cache_begin w).base = v.base ∧ (cache_begin w).pred = v.pred := by
    intro w hw
    rw [cache_begin_base, cache_begin_pred]; exact hw
  constructor
  · intro ops v2 h
    exact run_invariant (fun w => w.base = v.base ∧ w.pred = v.pred) hsf hcb ops v v2
      ⟨rfl, rfl⟩ h
  · intro fuel ys v2 h
    exact traverse_view_invariant (fun w => w.base = v.base ∧ w.pred = v.pred) hsf hcb fuel v
      (ys, v2) ⟨rfl, rfl⟩ h

/-- C11 at a concrete view: over `[2, 4, 5]` with the one-element matcher, the
source is unchanged after `begin`, `next`, `satisfy_forward` and `end`. -/
theorem C11_source_not_mutated_witness :
    ∃ v2 : remove_when_view Nat Unit,
      run (mk_view [2, 4, 5] match_one () true)
        [Op.begin, Op.next 1, Op.satisfy 2, Op.end_] = some v2 ∧ v2.base = [2, 4, 5] :=
  ⟨_, rfl, ((C11_source_not_mutated (mk_view [2, 4, 5] match_one () true)).1
    [Op.begin, Op.next 1, Op.satisfy 2, Op.end_] _ rfl).1⟩

/-- C12: a call of `satisfy_forward` made while `zero_` is set returns the
position unchanged, leaves `zero_` cleared and does not invoke the matcher (the
matcher state and the trace of invocations are unchanged), whatever the matcher
would report at that position; nothing else in the view changes. -/
theorem C12_zero_flag_grace {α σ : Type} (v : remove_when_view α σ) (p : Nat)
    (hz : v.zero_ = true) :
    (satisfy_forward v p).2 = p ∧ (satisfy_forward v p).1.zero_ = false ∧
    (satisfy_forward v p).1.trace = v.trace ∧ (satisfy_forward v p).1.st = v.st ∧
    satisfy_forward v p = ({ v with zero_ := false }, p) := by
  rw [satisfy_forward_zero_set v p hz]
  exact ⟨rfl, rfl, rfl, rfl, rfl⟩

/-- C12 at a concrete view: with `zero_` set, `satisfy_forward` at position 0
of `[7, 8]` stays at 0 and records no invocation, although the one-element
matcher would report a match there. -/
theorem C12_zero_flag_grace_witness :
    (satisfy_forward (mk_view [7, 8] match_one () true) 0).2 = 0 ∧
    (satisfy_forward (mk_view [7, 8] match_one () true) 0).1.zero_ = false ∧
    (satisfy_forward (mk_view [7, 8] match_one () true) 0).1.trace = [] ∧
    (match_one () 0 2).1 = (true, 1) :=
  have h := C12_zero_flag_grace (mk_view [7, 8] match_one () true) 0 rfl
  ⟨h.1, h.2.1, h.2.2.1, rfl⟩

/-- C13: in every state reached from a newly constructed view by a `begin()`
or a `next` (or a direct `satisfy_forward`) followed by any sequence of
`begin`, `end`, `next` and `satisfy_forward` operations, `zero_` is set only if
the most recent matcher invocation reported a match whose new position is the
position it was invoked at; so `zero_` is clear when the most recent invocation
reported no match or a match of positive length. -/
theorem C13_zero_flag_invariant {α σ : Type} (rng : List α) (m : Matcher σ) (s : σ) (z : Bool)
    (op : Op) (ops : List Op) (v : remove_when_view α σ) (hop : op ≠ Op.end_)
    (h : run (mk_view rng m s z) (op :: ops) = some v) :
    zero_flag_ok v = true ∧
    (∀ p matched q rest, v.trace = (p, matched, q) :: rest → (matched = false ∨ p ≠ q) →
      v.zero_ = false) := by
  have hok : zero_flag_ok v = true := by
    simp only [run] at h
    cases hs : step (mk_view rng m s z) op with
    | none => rw [hs] at h; cases h
    | some v1 =>
      rw [hs] at h
      have h1 : zero_flag_ok v1 = true := by
        cases op with
        | begin =>
          simp only [step, view_begin, begin_adaptor, adaptor_begin] at hs
          cases hb : (cache_begin (mk_view rng m s z)).begin_ with
          | none => rw [hb] at hs; cases hs
          | some b =>
            rw [hb] at hs
            simp only [Option.map_some', Option.some.injEq] at hs
            rw [← hs]
            exact cache_begin_zero_flag_ok _ (Or.inl rfl)
        | end_ => exact absurd rfl hop
        | next it =>
          simp only [step, adaptor_next] at hs
          split_ifs at hs
          · simp only [Option.map_some', Option.some.injEq] at hs
            rw [← hs]
            exact satisfy_forward_zero_flag_ok _ _
          · cases hs
        | satisfy it =>
          simp only [step, Option.some.injEq] at hs
          rw [← hs]
          exact satisfy_forward_zero_flag_ok _ _
      exact run_invariant (fun w => zero_flag_ok w = true)
        (fun w it _ => satisfy_forward_zero_flag_ok w it)
        (fun w hw => cache_begin_zero_flag_ok w (Or.inr hw)) ops v1 v h1 h
  refine ⟨hok, ?_⟩
  intro p matched q rest ht hor
  simp only [zero_flag_ok, ht, Bool.or_eq_true, Bool.not_eq_true', Bool.and_eq_true,
    beq_iff_eq] at hok
  rcases hok with h0 | ⟨h1, h2⟩
  · exact h0
  · rcases hor with h3 | h3
    · rw [h1] at h3; cases h3
    · exact absurd h2 h3

/-- C13 at a concrete view: over `[1, 2, 3]` with the matcher that reports one
zero-length match, `zero_` is set after `begin()`, the trace holding that
match, and clear again after `next`. -/
theorem C13_zero_flag_invariant_witness :
    ∃ v : remove_when_view Nat Bool,
      run (mk_view [1, 2, 3] match_zero_once false true) [Op.begin, Op.next 0, Op.next 1]
        = some v ∧ zero_flag_ok v = true ∧ v.zero_ = false :=
  ⟨_, rfl, (C13_zero_flag_invariant [1, 2, 3] match_zero_once false true Op.begin
    [Op.next 0, Op.next 1] _ (by decide) rfl).1, rfl⟩

/-- C14 (evaluation at the failing input): the matcher that reports a
zero-length match at position 0 and a one-element match at position 1 is
stateless and satisfies the Match Function Contract on a source of length 3,
yet two successive complete traversals of the same view over `[10, 20, 30]`
yield `[10, 20, 30]` and then `[10, 30]`. -/
theorem C14_second_traversal_differs :
    match_contract match_zero_then_one 3 ∧
    (∀ z, traverse_twice 3 (mk_view [10, 20, 30] match_zero_then_one () z)
      = some ([10, 20, 30], [10, 30])) := by
  constructor
  · intro s p hp h
    simp only [match_zero_then_one]
    split_ifs <;> simp <;> omega
  · decide

/-- C15: for a stateless matcher that satisfies the Match Function Contract,
never reports a zero-length match and whose matches are maximal, the traversal
of a newly built view and the reference walk from the begin of the source both
return with any fuel of at least the length of the source, and they yield the
same sequence. -/
theorem C15_equals_reference_walk {α : Type} (rng : List α) (m : Matcher Unit) (z : Bool)
    (fuel : Nat) (hc : match_contract m rng.length) (hnz : no_zero_length m rng.length)
    (hmax : match_maximal m rng.length) (hfuel : rng.length ≤ fuel) :
    ∃ ys, traverse_elems fuel (mk_view rng m () z) = some ys ∧
      walk_ref rng m fuel 0 = some ys := by
  have hz1 : (satisfy_forward { mk_view rng m () z with zero_ := false } 0).1.zero_ = false := by
    apply satisfy_forward_zero_clear_of _ 0 rfl
    intro hne hm1
    exact hnz 0 (Nat.pos_of_ne_zero (fun e => hne e.symm)) hm1
  obtain ⟨ys, v2, h1, h2⟩ := traverse_from_walk_ref rng m hc hnz hmax rng.length 0 fuel fuel
    { mk_view rng m () z with zero_ := false }
    { (satisfy_forward { mk_view rng m () z with zero_ := false } 0).1 with
      begin_ := some (satisfy_forward { mk_view rng m () z with zero_ := false } 0).2 }
    rfl rfl rfl (by simp only [satisfy_forward_base]; rfl)
    (by simp only [satisfy_forward_pred]; rfl) hz1 (Nat.zero_le _) (by omega) (by omega)
    (by omega)
  refine ⟨ys, ?_, h2⟩
  simp only [traverse_elems, traverse_view, view_begin, begin_adaptor, adaptor_begin, cache_begin,
    mk_view, base_begin, Option.map_some']
  simp only [mk_view] at h1
  rw [h1]
  rfl

/-- C15 at the source `[1, 1, 1, 2, 3]` with the run matcher, which never
reports a zero-length match and whose one match there is maximal: the
traversal and the reference walk both yield `[2, 3]`. -/
theorem C15_equals_reference_walk_witness :
    ∃ ys, traverse_elems 5 (mk_view [1, 1, 1, 2, 3] (match_run [1, 1, 1, 2, 3]) () true) = some ys ∧
      walk_ref [1, 1, 1, 2, 3] (match_run [1, 1, 1, 2, 3]) 5 0 = some ys ∧ ys = [2, 3] := by
  obtain ⟨ys, h1, h2⟩ := C15_equals_reference_walk [1, 1, 1, 2, 3] (match_run [1, 1, 1, 2, 3])
    true 5
    (by
      intro s p hp h
      cases s
      have hp5 : p < 5 := hp
      interval_cases p <;> revert h <;> decide)
    (by
      intro p hp h
      have hp5 : p < 5 := hp
      interval_cases p <;> revert h <;> decide)
    (by
      intro p hp h
      have hp5 : p < 5 := hp
      interval_cases p <;> revert h <;> decide)
    (by decide)
  refine ⟨ys, h1, h2, ?_⟩
  have h3 : walk_ref [1, 1, 1, 2, 3] (match_run [1, 1, 1, 2, 3]) 5 0 = some [2, 3] := by decide
  rw [h3] at h2
  exact (Option.some.inj h2).symm

/-- C16: for a matcher that satisfies the Match Function Contract, the
traversal of a newly built view returns with any fuel of at least the length of
the source; the positions it dereferences are strictly increasing and before
the sentinel, the elements it yields are the elements at these positions, and
they form a sublist of the source. -/
theorem C16_order_preserving_sublist {α σ : Type} (rng : List α) (m : Matcher σ) (s : σ)
    (z : Bool) (fuel : Nat) (hc : match_contract m rng.length) (hfuel : rng.length ≤ fuel) :
    ∃ ps v2, visit_view fuel (mk_view rng m s z) = some (ps, v2) ∧
      traverse_view fuel (mk_view rng m s z) = some (ps.filterMap (fun p => rng[p]?), v2) ∧
      ps.Pairwise (fun a b => a < b) ∧ (∀ p ∈ ps, p < rng.length) ∧
      (ps.filterMap (fun p => rng[p]?)).Sublist rng := by
  have hbd := satisfy_forward_bounds { mk_view rng m s z with zero_ := false } 0 hc
    (Nat.zero_le _)
  have hbase := satisfy_forward_base { mk_view rng m s z with zero_ := false } 0
  have hpred := satisfy_forward_pred { mk_view rng m s z with zero_ := false } 0
  obtain ⟨ps, v2, h1, h2, h3, h4, h5⟩ := visit_from_spec rng fuel
    { (satisfy_forward { mk_view rng m s z with zero_ := false } 0).1 with
      begin_ := some (satisfy_forward { mk_view rng m s z with zero_ := false } 0).2 }
    (satisfy_forward { mk_view rng m s z with zero_ := false } 0).2
    (by simp only [hbase]; rfl) (by simp only [hpred]; exact hc) hbd.2
    (by simp only [mk_view] at hfuel ⊢; omega)
  refine ⟨ps, v2, ?_, ?_, h4, fun p hp => (h3 p hp).2, h5.trans (List.drop_sublist _ _)⟩
  · simp only [visit_view, view_begin, begin_adaptor, adaptor_begin, cache_begin, mk_view,
      base_begin, Option.map_some']
    exact h1
  · simp only [traverse_view, view_begin, begin_adaptor, adaptor_begin, cache_begin, mk_view,
      base_begin, Option.map_some']
    exact h2

/-- C16 at a concrete view: over `[7, 8, 9]` with the one-element matcher the
traversal dereferences position 1 only and yields `[8]`. -/
theorem C16_order_preserving_sublist_witness :
    ∃ ps v2, visit_view 3 (mk_view [7, 8, 9] match_one () true) = some (ps, v2) ∧
      traverse_view 3 (mk_view [7, 8, 9] match_one () true)
        = some (ps.filterMap (fun p => [7, 8, 9][p]?), v2) ∧
      ps.Pairwise (fun a b => a < b) ∧ (∀ p ∈ ps, p < 3) ∧
      (ps.filterMap (fun p => [7, 8, 9][p]?)).Sublist [7, 8, 9] :=
  C16_order_preserving_sublist [7, 8, 9] match_one () true 3 (match_one_contract 3)
    (Nat.le_refl 3)

/-- C17: the matcher is never invoked at the sentinel: after any sequence of
operations on a newly constructed view, and after a complete traversal of it,
every recorded invocation was made at a position different from the end of the
source; `satisfy_forward` at the sentinel with `zero_` clear leaves the
position and the whole view unchanged; and `begin()` of a view over an empty
source returns the sentinel without invoking the matcher. -/
theorem C17_no_invocation_at_sentinel {α σ : Type} (rng : List α) (m : Matcher σ) (s : σ)
    (z : Bool) :
    (∀ ops v2, run (mk_view rng m s z) ops = some v2 → ∀ e ∈ v2.trace, e.1 ≠ rng.length) ∧
    (∀ fuel ys v2, traverse_view fuel (mk_view rng m s z) = some (ys, v2) →
      ∀ e ∈ v2.trace, e.1 ≠ rng.length) ∧
    (∀ v : remove_when_view α σ, v.zero_ = false →
      satisfy_forward v (base_end v) = (v, base_end v)) ∧
    (∃ v1, view_begin (mk_view ([] : List α) m s z) = some (v1, 0) ∧ v1.trace = [] ∧
      base_end v1 = 0) := by
  have h0 : (mk_view rng m s z).base.length = rng.length ∧
      ∀ e ∈ (mk_view rng m s z).trace, e.1 ≠ rng.length :=
    ⟨rfl, fun e he => by simp [mk_view] at he⟩
  refine ⟨?_, ?_, ?_, ?_⟩
  · intro ops v2 h
    exact (run_invariant (fun w => w.base.length = rng.length ∧ ∀ e ∈ w.trace, e.1 ≠ rng.length)
      (fun w it hw => satisfy_forward_trace rng.length w it hw)
      (fun w hw => cache_begin_trace rng.length w hw) ops _ v2 h0 h).2
  · intro fuel ys v2 h
    exact (traverse_view_invariant
      (fun w => w.base.length = rng.length ∧ ∀ e ∈ w.trace, e.1 ≠ rng.length)
      (fun w it hw => satisfy_forward_trace rng.length w it hw)
      (fun w hw => cache_begin_trace rng.length w hw) fuel _ (ys, v2) h0 h).2
  · intro v hz
    exact satisfy_forward_at_end v hz
  · exact ⟨_, rfl, rfl, rfl⟩

/-- C17 at a concrete view: after a complete traversal of `[7, 8, 9]` with the
one-element matcher, the matcher has been invoked at positions 0 and 2 only. -/
theorem C17_no_invocation_at_sentinel_witness :
    ∃ ys v2, traverse_view 3 (mk_view [7, 8, 9] match_one () true) = some (ys, v2) ∧
      v2.trace.map Prod.fst = [2, 0] ∧ ∀ e ∈ v2.trace, e.1 ≠ 3 :=
  ⟨_, _, rfl, rfl, (C17_no_invocation_at_sentinel [7, 8, 9] match_one () true).2.1 3 _ _ rfl⟩

/-- C18: for every character array of length `N ≥ 1` whose last element is
zero and whose other elements are all non-zero, the fixed-length overload and
the null-terminated overload of `c_str` can both be traversed with any fuel of
at least `N`, and both yield the first `N - 1` elements of the array. -/
theorem C18_c_str_overloads_agree (sz : List Nat) (fuel : Nat) (hN : 1 ≤ sz.length)
    (hlast : sz[sz.length - 1]? = some 0)
    (hbody : ∀ i, i < sz.length - 1 → sz[i]? ≠ some 0) (hfuel : sz.length ≤ fuel) :
    (view.c_str_array sz).traverse_all fuel = some (sz.take (sz.length - 1)) ∧
    (view.c_str sz).traverse_all fuel = some (sz.take (sz.length - 1)) := by
  have hsplit := well_formed_split sz hN hlast
  have hb := well_formed_body sz hbody
  constructor
  · have h := subrange.traverse_from_take (view.c_str_array sz) fuel 0 (Nat.zero_le _)
      (by simp [view.c_str_array]) (by simp only [view.c_str_array]; omega)
    simpa [subrange.traverse_all, view.c_str_array] using h
  · have hmem : (0 : Nat) ∈ sz := by
      rw [hsplit]; simp
    have h := delimit_view.traverse_from_takeWhile (view.c_str sz) fuel 0
      (by simpa [view.c_str, view.delimit] using hmem)
      (by simpa [view.c_str, view.delimit] using hfuel)
    have htw : sz.takeWhile (fun c => decide (c ≠ 0)) = sz.take (sz.length - 1) := by
      conv_lhs => rw [hsplit]
      rw [List.takeWhile_append_of_pos (by simpa using hb)]
      simp
    simp only [delimit_view.traverse_all]
    rw [h]
    simp only [view.c_str, view.delimit, List.drop_zero]
    rw [htw]

/-- C18 at the array `['a', 'b', 'c', 0]`: both overloads yield `['a', 'b', 'c']`. -/
theorem C18_c_str_overloads_agree_witness :
    (view.c_str_array [97, 98, 99, 0]).traverse_all 4 = some [97, 98, 99] ∧
    (view.c_str [97, 98, 99, 0]).traverse_all 4 = some [97, 98, 99] :=
  C18_c_str_overloads_agree [97, 98, 99, 0] 4 (by decide) (by decide)
    (by
      intro i hi
      have hi3 : i < 3 := hi
      interval_cases i <;> simp)
    (by decide)
